import Mathlib

/-!
Shallow embedding of the rule-enforcing Go core of the `kiri` repository
(crates `go_board` and `go_rule`) and proofs about it.

The embedding fixes the only instantiated board type of the source,
`Position19` (`make_position!(19, 1, ...)` in `go_rule/src/position.rs`):
width = height = 19, out-of-bounds (OB) halo of width 1, hence a padded
1-dimensional array of `21 * 21 = 441` cells addressed by linear
coordinates.  The state array is embedded as a total function
`Nat → PointState`; the source accesses it only at indices the board
arithmetic produces, so values outside `[0, 441)` are immaterial.
-/

namespace GoKiri

/-- Stone colours, `Color` in `go_board/src/lib.rs`. -/
inductive Color where
  | black : Color
  | white : Color
deriving DecidableEq, Repr

/-- Involutive opponent operation, `Color::opponent`. -/
def Color.opponent : Color → Color
  | Color.black => Color.white
  | Color.white => Color.black

/-- State of one intersection, `PointState` in `go_board/src/lib.rs`. -/
inductive PointState where
  | Empty : PointState
  | Occupied : Color → PointState
  | Out : PointState
  | Forbidden : PointState
deriving DecidableEq, Repr

/-- Colour flip on point states, `PointState::opponent`: non-stones map to the
`Forbidden` sentinel. -/
def PointState.opponent : PointState → PointState
  | PointState.Occupied c => PointState.Occupied c.opponent
  | _ => PointState.Forbidden

/-- Stone test, `PointState::is_stone`. -/
def PointState.isStone : PointState → Bool
  | PointState.Occupied _ => true
  | _ => false

/-- Moves, `Move` in `go_board/src/lib.rs`: pass, resignation, or the linear
coordinate of the played intersection. -/
inductive Move where
  | Pass : Move
  | Resign : Move
  | Linear : Nat → Move
deriving DecidableEq, Repr

/-- Modelled from the spec: the error enumeration of `go_board/src/error.rs`
is not among the provided sources; the spec (sections 6 and 7) lists the
input errors `InvalidVertex`, `WrongRows` and `WrongColumns` originating from
the coordinate and text codecs. -/
inductive BoardError where
  | InvalidVertex : BoardError
  | WrongRows : BoardError
  | WrongColumns : BoardError
deriving DecidableEq, Repr

instance {ε α : Type} [DecidableEq ε] [DecidableEq α] :
    DecidableEq (Except ε α) := fun a b =>
  match a, b with
  | Except.ok x, Except.ok y =>
    decidable_of_iff (x = y) (by simp)
  | Except.error x, Except.error y =>
    decidable_of_iff (x = y) (by simp)
  | Except.ok _, Except.error _ => isFalse (by simp)
  | Except.error _, Except.ok _ => isFalse (by simp)

/-- Board side of `Position19`, `get_width` = `get_height` = 19. -/
def boardSize : Nat := 19

/-- Halo width, `get_ob_size` = 1. -/
def obSize : Nat := 1

/-- Padded width, `get_width_with_ob` = width + 2 * ob = 21. -/
def widthWithOb : Nat := boardSize + obSize * 2

/-- Conversion from (x, y) with origin (1,1) at the top left of the playing
area to the linear coordinate, `Board::xy_to_linear`. -/
def xyToLinear (x y : Nat) : Nat :=
  x + obSize - 1 + (y + obSize - 1) * widthWithOb

/-- Inverse conversion, `Board::linear_to_xy`. -/
def linearToXy (p : Nat) : Nat × Nat :=
  (p % widthWithOb - obSize + 1, p / widthWithOb - obSize + 1)

/-- Generic `xy_to_linear` for an arbitrary board width `w` and halo `ob`
(the trait default method depends only on those two parameters). -/
def xyToLinearG (w ob x y : Nat) : Nat :=
  x + ob - 1 + (y + ob - 1) * (w + 2 * ob)

/-- Generic `Board::all_points`: the contiguous `Range` of linear coordinates
`xy_to_linear(1,1) .. xy_to_linear(w,h) + 1` (source comment: it also
contains off-board linear coordinates). -/
def allPointsG (w h ob : Nat) : List Nat :=
  List.range' (xyToLinearG w ob 1 1) (xyToLinearG w ob w h + 1 - xyToLinearG w ob 1 1)

/-- Concrete `all_points` of `Position19`. -/
def allPoints : List Nat := allPointsG boardSize boardSize obSize

/-- A linear coordinate is on board when its (x, y) lies in `[1..19]²`; for
the padded width 21 this reads off the remainder and quotient by 21. -/
def OnBoardCoord (q : Nat) : Prop :=
  1 ≤ q % widthWithOb ∧ q % widthWithOb ≤ boardSize ∧
    1 ≤ q / widthWithOb ∧ q / widthWithOb ≤ boardSize

instance (q : Nat) : Decidable (OnBoardCoord q) := by
  unfold OnBoardCoord; infer_instance

/-- Cardinal neighbours in the order N, E, S, W, `Rule::adjacencies_at`
(the source uses `get_width() + 2` for the padded width). -/
def adjacenciesAt (pt : Nat) : List Nat :=
  [pt - (boardSize + 2), pt + 1, pt + (boardSize + 2), pt - 1]

/-- Diagonal neighbours in the order NE, SE, SW, NW,
`Rule::diagonal_neighbors`. -/
def diagonalNeighbors (pt : Nat) : List Nat :=
  [pt - (boardSize + 2) + 1, pt + (boardSize + 2) + 1,
   pt + (boardSize + 2) - 1, pt - (boardSize + 2) - 1]

/-- Functional update of the state array, `Board::set_state`. -/
def setState (s : Nat → PointState) (pt : Nat) (v : PointState) :
    Nat → PointState :=
  fun q => if q = pt then v else s q

/-- Net effect of `Position19::reset` on the state array: the first loop
writes `Out` into every cell of the padded array, the nested loop then writes
`Empty` into every on-board cell.  (Cells at and beyond index 441 do not
exist in the source array; the function extends them by `Out`.) -/
def resetStates : Nat → PointState :=
  fun q => if OnBoardCoord q then PointState.Empty else PointState.Out

/-- Aggregate game state, the `Position19` struct: komi, padded state array,
side to move, optional ko point.  (Komi is an `f32` in the source; it is
carried as a rational here and no claim involves its arithmetic.) -/
structure Position where
  komi : ℚ
  states : Nat → PointState
  turn : Color
  ko : Option Nat

/-- Default position built by `Position19::new` via `reset`: empty board,
Black to move, no ko, komi 6.5. -/
def newPosition : Position :=
  { komi := 6.5, states := resetStates, turn := Color.black, ko := none }

/-- Ko test, `Rule::is_ko` as implemented by `Position19`. -/
def isKo (p : Position) (pt : Nat) : Bool :=
  match p.ko with
  | some i => pt = i
  | none => false

/-- Reversibility record returned by `play`, the `MoveLog` struct in
`go_rule/src/rule.rs`.  The `turn` field holds whatever `self.get_turn()`
returns at the point the struct is built (which in the source is after
`switch_turn()`). -/
structure MoveLog where
  turn : Color
  ko : Option Nat
  mov : Move
  captives : List Nat
deriving DecidableEq, Repr

/-- Connected string produced by the flood, the `GoString` struct. -/
structure GoString where
  points : List Nat
  liberties : List Nat
  opponents : List Nat
deriving DecidableEq, Repr

/-! ### Coordinate codec (`board.rs`) -/

/-- ASCII uppercasing of one character, modelling `str::to_uppercase` on the
ASCII inputs the codec handles. -/
def charUpper (c : Char) : Char :=
  if 'a' ≤ c ∧ c ≤ 'z' then Char.ofNat (c.toNat - 32) else c

/-- Decimal parse of the row number, modelling `str::parse::<u8>`: an
optional leading plus sign, then a nonempty digit string whose value fits
in a `u8`. -/
def parseU8 (cs : List Char) : Option Nat :=
  let ds := match cs with
    | '+' :: rest => rest
    | _ => cs
  if ds = [] then none
  else if ds.all (fun c => decide ('0' ≤ c ∧ c ≤ '9')) then
    let v := ds.foldl (fun a c => a * 10 + (c.toNat - 48)) 0
    if v ≤ 255 then some v else none
  else none

/-- Two-dimensional move representation used by the parser, `XyMove`. -/
inductive XyMove where
  | Pass : XyMove
  | Point : Nat → Nat → XyMove
deriving DecidableEq, Repr

/-- Algebraic-coordinate parser `parse_algebraic` of `board.rs`: uppercase
the input, recognise "PASS", otherwise one column letter (I skipped) and a
decimal row counted from the bottom. -/
def parseAlgebraic (cs : List Char) (height : Nat) : Except BoardError XyMove :=
  let st := cs.map charUpper
  if st = ['P', 'A', 'S', 'S'] then Except.ok XyMove.Pass
  else
    match st with
    | [] => Except.error BoardError.InvalidVertex
    | c :: rest =>
      match parseU8 rest with
      | some y =>
        let x := c.toNat - 64 - (if c < 'J' then 0 else 1)
        Except.ok (XyMove.Point x (height - y + 1))
      | none => Except.error BoardError.InvalidVertex

/-- String form of a move, `Board::str_coord`, as a character list: "pass",
"resign", or column letter (skipping I) followed by the display row
`height - y + 1`. -/
def strCoordChars (m : Move) : List Char :=
  match m with
  | Move.Pass => ['p', 'a', 's', 's']
  | Move.Resign => ['r', 'e', 's', 'i', 'g', 'n']
  | Move.Linear i =>
    let x := (linearToXy i).1
    let y := (linearToXy i).2
    let c := 64 + x
    let c := if 72 < c then c + 1 else c
    Char.ofNat c :: Nat.toDigits 10 (boardSize - y + 1)

/-- Conversion from the algebraic form to a move, `Board::algebraic_to_move`
for the 19×19 board. -/
def algebraicToMove (cs : List Char) : Except BoardError Move :=
  (parseAlgebraic cs boardSize).map fun xymove =>
    match xymove with
    | XyMove.Pass => Move.Pass
    | XyMove.Point x y => Move.Linear (xyToLinear x y)

/-! ### String flood (`Position19::string_at` in `position.rs`)

The shared generational `Marker` is embedded as the set of marked indices:
each `string_at` call starts from a freshly cleared marker, and under the
marker contract (spec section 4.2) a cleared generational marker behaves
exactly like an initially-false characteristic function. -/

/-- Marker state plus the two growing sequences of the flood. -/
structure FloodState where
  marks : Nat → Bool
  points : List Nat
  libs : List Nat

/-- Marking one index, `Marker::mark`. -/
def markSet (m : Nat → Bool) (i : Nat) : Nat → Bool :=
  fun j => if j = i then true else m j

/-- Handling of one cardinal neighbour inside the flood walk: unmarked
same-coloured stones are appended to `points` without being marked; any
other unmarked neighbour is marked, and appended to `liberties` when it is
empty.  (The `position.rs` implementation never records opponents.) -/
def processNeighbor (s : Nat → PointState) (stone : PointState)
    (st : FloodState) (a : Nat) : FloodState :=
  if st.marks a then st
  else if s a = stone then { st with points := st.points ++ [a] }
  else
    let m := markSet st.marks a
    if s a = PointState.Empty then
      { st with marks := m, libs := st.libs ++ [a] }
    else
      { st with marks := m }

/-- The `while index < string.points.len()` walk of `string_at`, with an
explicit fuel argument; `stringAt` supplies fuel that the termination
measure (proved below) shows is sufficient. -/
def floodLoop (s : Nat → PointState) (stone : PointState) :
    Nat → FloodState → Nat → FloodState
  | 0, st, _ => st
  | fuel + 1, st, index =>
    if h : index < st.points.length then
      let pt := st.points.get ⟨index, h⟩
      if st.marks pt then floodLoop s stone fuel st (index + 1)
      else
        let st1 : FloodState := { st with marks := markSet st.marks pt }
        let st2 := (adjacenciesAt pt).foldl (processNeighbor s stone) st1
        floodLoop s stone fuel st2 (index + 1)
    else st

/-- Fuel bound: the walk marks an unvisited cell (of the 441-cell array) on
every growing step, and `points` grows by at most 4 then; `5 * 441 + 1`
steps always suffice. -/
def floodFuel : Nat := 5 * 441 + 1

/-- The flood `string_at(pt)`: seed `points` with `pt`, walk to exhaustion.
The returned `GoString` has an empty `opponents` sequence because the
`position.rs` implementation never appends to it. -/
def stringAt (s : Nat → PointState) (pt : Nat) : GoString :=
  let st := floodLoop s (s pt) floodFuel
    { marks := fun _ => false, points := [pt], libs := [] } 0
  { points := st.points, liberties := st.libs, opponents := [] }

/-! ### Move engine (`rule.rs`) -/

/-- Removal of a captured string, `Rule::remove_string`: set every
coordinate of `points` to `Empty`. -/
def removeString (s : Nat → PointState) (g : GoString) : Nat → PointState :=
  g.points.foldl (fun acc e => setState acc e PointState.Empty) s

/-- One iteration of the capture loop of `Rule::capture_by`: if the
neighbour holds an opponent stone, flood it, and when the string has no
liberties remove it and append its points to the captives. -/
def captureStep (opponent : Color) (acc : (Nat → PointState) × List Nat)
    (a : Nat) : (Nat → PointState) × List Nat :=
  if acc.1 a = PointState.Occupied opponent then
    let g := stringAt acc.1 a
    if g.liberties.length = 0 then (removeString acc.1 g, acc.2 ++ g.points)
    else acc
  else acc

/-- Capture phase `Rule::capture_by`: visit the four cardinal neighbours of
the played stone in the order N, E, S, W. -/
def captureBy (s : Nat → PointState) (turn : Color) (pt : Nat) :
    (Nat → PointState) × List Nat :=
  (adjacenciesAt pt).foldl (captureStep turn.opponent) (s, [])

/-- The move transaction `Rule::play`.  It returns the `Result` together
with the final state of the mutated position.  Note that the `turn` field of
the returned `MoveLog` is read from the position after `switch_turn()`. -/
def play (p : Position) (m : Move) : Except String MoveLog × Position :=
  let ko := p.ko
  match m with
  | Move.Pass =>
    let p1 : Position := { p with turn := p.turn.opponent }
    (Except.ok { turn := p1.turn, ko := ko, mov := Move.Pass, captives := [] }, p1)
  | Move.Linear pt =>
    if isKo p pt then (Except.error "prohibit move", p)
    else
      let turn := p.turn
      let s1 := setState p.states pt (PointState.Occupied turn)
      let cres := captureBy s1 turn pt
      let s2 := cres.1
      let captives := cres.2
      let string := stringAt s2 pt
      if string.liberties.length = 0 then
        (Except.error "suicide move",
          { p with states := setState s2 pt PointState.Empty })
      else
        let newKo : Option Nat :=
          if h : captives.length = 1 ∧ string.liberties.length = 1 ∧
              string.points.length = 1 then
            some (string.liberties.get ⟨0, by rw [h.2.1]; exact Nat.zero_lt_one⟩)
          else none
        let log : MoveLog :=
          { turn := turn.opponent, ko := ko, mov := Move.Linear pt,
            captives := captives }
        (Except.ok log,
          { p with states := s2, turn := turn.opponent, ko := newKo })
  | Move.Resign => (Except.error "resign is not treated by play", p)

/-- The undo transaction `Rule::undo_play`: restore the logged ko, switch
the turn back, and for a linear move empty the played point and put stones
of colour `log.turn.opponent()` back on the captured coordinates. -/
def undoPlay (p : Position) (log : MoveLog) : Position :=
  let p1 : Position := { p with ko := log.ko, turn := p.turn.opponent }
  match log.mov with
  | Move.Linear i =>
    let s1 := setState p1.states i PointState.Empty
    let opponent := log.turn.opponent
    { p1 with
      states := log.captives.foldl
        (fun acc pt => setState acc pt (PointState.Occupied opponent)) s1 }
  | _ => p1

/-! ### Eye predicate (`Rule::is_eye`) -/

/-- The cardinal-neighbour scan of `is_eye`: skip `Out`, return early (as
`none`) on an empty neighbour or a stone of the colour opposite to the
first stone seen; otherwise remember the first stone colour as the eye
colour and its flip as `other`. -/
def isEyeColors (s : Nat → PointState) :
    List Nat → PointState → PointState → Option (PointState × PointState)
  | [], eyecolor, other => some (eyecolor, other)
  | n :: rest, eyecolor, other =>
    match s n with
    | PointState.Out => isEyeColors s rest eyecolor other
    | PointState.Empty => none
    | c =>
      if eyecolor = PointState.Empty then isEyeColors s rest c c.opponent
      else if c = other then none
      else isEyeColors s rest eyecolor other

/-- The eye predicate `Rule::is_eye`: after the cardinal scan, count `Out`
and opposing diagonals and decide. -/
def isEye (s : Nat → PointState) (pt : Nat) : PointState :=
  match isEyeColors s (adjacenciesAt pt) PointState.Empty PointState.Empty with
  | none => PointState.Empty
  | some (eyecolor, other) =>
    let counts := (diagonalNeighbors pt).foldl
      (fun (acc : Nat × Nat) n =>
        let c := s n
        if c = PointState.Out then (acc.1 + 1, acc.2)
        else if c = other then (acc.1, acc.2 + 1)
        else acc) (0, 0)
    if (1 ≤ counts.1 ∧ 1 ≤ counts.2) ∨ (counts.1 = 0 ∧ 2 ≤ counts.2) then
      PointState.Empty
    else eyecolor

/-! ### Specification-side notions

These are the abstract notions the claims quantify with: 4-connectivity of
same-coloured stones, liberties of a stone, and the halo invariant. -/

/-- One connectivity step between cells of state `v`: both cells hold `v`
and the second is a cardinal neighbour of the first. -/
def Step (s : Nat → PointState) (v : PointState) (a b : Nat) : Prop :=
  s a = v ∧ s b = v ∧ b ∈ adjacenciesAt a

/-- Reachability through same-state cells, i.e. membership of `y` in the
maximal 4-connected set of `v`-cells containing `x`. -/
def Reach (s : Nat → PointState) (v : PointState) (x y : Nat) : Prop :=
  Relation.ReflTransGen (Step s v) x y

/-- Halo invariant of a state array: every off-board cell holds `Out`. -/
def WfBoard (s : Nat → PointState) : Prop :=
  ∀ q, ¬ OnBoardCoord q → s q = PointState.Out

/-- Liveness of all stones: every stone can reach (through its own string) a
cell with an empty cardinal neighbour, i.e. every string has a liberty. -/
def AllAlive (s : Nat → PointState) : Prop :=
  ∀ q c, s q = PointState.Occupied c →
    ∃ r a, Reach s (PointState.Occupied c) q r ∧ a ∈ adjacenciesAt r ∧
      s a = PointState.Empty

/-- Cellwise evolution of the board during the capture phase: each cell is
either unchanged or was an `ov`-stone that is now empty. -/
def CellEvo (ov : PointState) (c c2 : Nat → PointState) : Prop :=
  ∀ q, c2 q = c q ∨ (c2 q = PointState.Empty ∧ c q = ov)

/-- Invariant of the capture loop: every remaining opponent stone either
already has a liberty or its string reaches one of the still-unprocessed
neighbours of the played point. -/
def OppAlive (s : Nat → PointState) (opp : Color) (todo : List Nat) : Prop :=
  ∀ q, s q = PointState.Occupied opp →
    (∃ r a2, Reach s (PointState.Occupied opp) q r ∧
      a2 ∈ adjacenciesAt r ∧ s a2 = PointState.Empty) ∨
    (∃ b ∈ todo, Reach s (PointState.Occupied opp) q b)

/-- One neighbour is fully accounted for by the flood state: a same-colour
stone is recorded in `points`, an empty cell in `libs`. -/
def HandledOne (s : Nat → PointState) (v : PointState) (st : FloodState)
    (b : Nat) : Prop :=
  (s b = v → b ∈ st.points) ∧ (s b = PointState.Empty → b ∈ st.libs)

/-- A cell is handled when each of its cardinal neighbours is. -/
def Handled (s : Nat → PointState) (v : PointState) (st : FloodState)
    (x : Nat) : Prop :=
  ∀ b ∈ adjacenciesAt x, HandledOne s v st b

/-- Loop invariant of the flood walk, asserted at each loop-head. -/
def FloodInv (s : Nat → PointState) (v : PointState) (seed : Nat)
    (st : FloodState) (i : Nat) : Prop :=
  i ≤ st.points.length ∧
  (∀ q ∈ st.points, s q = v ∧ Reach s v seed q) ∧
  seed ∈ st.points ∧
  (∀ q ∈ st.points.take i, st.marks q = true) ∧
  (∀ q, st.marks q = true → s q = v → q ∈ st.points ∧ Handled s v st q) ∧
  (∀ q, st.marks q = true → s q = PointState.Empty → q ∈ st.libs) ∧
  (∀ y ∈ st.libs, s y = PointState.Empty ∧
    ∃ x, Reach s v seed x ∧ y ∈ adjacenciesAt x)

/-- Mid-fold invariant while the neighbours of the freshly marked cell `pt`
are being processed: like `FloodInv`'s mark clauses, except that `pt`
itself need not be handled yet. -/
def MidInv (s : Nat → PointState) (v : PointState) (seed pt : Nat)
    (st : FloodState) : Prop :=
  (∀ q ∈ st.points, s q = v ∧ Reach s v seed q) ∧
  seed ∈ st.points ∧
  st.marks pt = true ∧ pt ∈ st.points ∧ Reach s v seed pt ∧ s pt = v ∧
  (∀ q, st.marks q = true → s q = v → q ≠ pt →
    q ∈ st.points ∧ Handled s v st q) ∧
  (∀ q, st.marks q = true → s q = PointState.Empty → q ∈ st.libs) ∧
  (∀ y ∈ st.libs, s y = PointState.Empty ∧
    ∃ x, Reach s v seed x ∧ y ∈ adjacenciesAt x)

/-- The characterisation the walk establishes on exit: `points` is exactly
the connected string of the seed, `libs` exactly its empty neighbourhood. -/
def FloodFinal (s : Nat → PointState) (v : PointState) (seed : Nat)
    (st : FloodState) : Prop :=
  (∀ q, q ∈ st.points ↔ Reach s v seed q) ∧
  (∀ y, y ∈ st.libs ↔ s y = PointState.Empty ∧
    ∃ x, Reach s v seed x ∧ y ∈ adjacenciesAt x)

/-- Number of unmarked cells of the 441-cell padded array. -/
def unmarkedCount (st : FloodState) : Nat :=
  ((Finset.range 441).filter (fun q => st.marks q = false)).card

/-- Termination measure of the flood walk. -/
def floodMeasure (st : FloodState) (i : Nat) : Nat :=
  5 * unmarkedCount st + (st.points.length - i)

/-- Count of `Out` diagonal neighbours (the `n_out` of the claim). -/
def diagOutCount (s : Nat → PointState) (pt : Nat) : Nat :=
  (diagonalNeighbors pt).countP (fun n => decide (s n = PointState.Out))

/-- Count of diagonal neighbours holding a stone of the colour opposite to
the eye colour (the `n_opponent` of the claim). -/
def diagOppCount (s : Nat → PointState) (ec : Color) (pt : Nat) : Nat :=
  (diagonalNeighbors pt).countP
    (fun n => decide (s n = PointState.Occupied ec.opponent))

/-! ### Concrete scenario boards used by witnesses and counterexamples -/

/-- A 2×2 block of black stones at (1,1), (2,1), (1,2), (2,2). -/
def sqBoard : Nat → PointState :=
  setState (setState (setState (setState resetStates
    22 (PointState.Occupied Color.black))
    23 (PointState.Occupied Color.black))
    43 (PointState.Occupied Color.black))
    44 (PointState.Occupied Color.black)

/-- A black stone at (1,1) with a white stone on its east neighbour (2,1). -/
def bwBoard : Nat → PointState :=
  setState (setState resetStates
    22 (PointState.Occupied Color.black))
    23 (PointState.Occupied Color.white)

/-- Capture scenario: Black at (1,1) and (3,1), White at (2,1); Black to
play (2,2) captures the white stone. -/
def c1States : Nat → PointState :=
  setState (setState (setState resetStates
    22 (PointState.Occupied Color.black))
    24 (PointState.Occupied Color.black))
    23 (PointState.Occupied Color.white)

/-- Position around `c1States`, Black to move, no ko. -/
def c1Pos : Position :=
  { komi := 6.5, states := c1States, turn := Color.black, ko := none }

/-- Ko scenario: White at (1,1), (3,1) and (2,2), Black at (1,2); Black
playing (2,1) captures (1,1) with a single-stone single-liberty string,
which arms the ko at (1,1). -/
def c2States : Nat → PointState :=
  setState (setState (setState (setState resetStates
    22 (PointState.Occupied Color.white))
    24 (PointState.Occupied Color.white))
    44 (PointState.Occupied Color.white))
    43 (PointState.Occupied Color.black)

/-- Position around `c2States`, Black to move. -/
def c2Pos : Position :=
  { komi := 6.5, states := c2States, turn := Color.black, ko := none }

/-- The position reached after Black takes the ko in `c2Pos`. -/
def c2AfterKo : Position := (play c2Pos (Move.Linear 23)).2

/-- Fresh position whose ko point is artificially armed at (1,1); used to
exercise the ko-forbidden error path. -/
def koPos : Position := { newPosition with ko := some 22 }

/-- Corner-eye scenario of the spec (S3): Black at (2,1) and (1,2) on an
otherwise empty board. -/
def cornerBoard : Nat → PointState :=
  setState (setState resetStates
    (xyToLinear 2 1) (PointState.Occupied Color.black))
    (xyToLinear 1 2) (PointState.Occupied Color.black)

/-! ### Basic arithmetic lemmas -/

theorem onBoardCoord_def (q : Nat) :
    OnBoardCoord q ↔
      1 ≤ q % 21 ∧ q % 21 ≤ 19 ∧ 1 ≤ q / 21 ∧ q / 21 ≤ 19 := Iff.rfl

theorem onBoardCoord_bounds {q : Nat} (h : OnBoardCoord q) :
    22 ≤ q ∧ q ≤ 418 := by
  rw [onBoardCoord_def] at h
  omega

theorem adjacenciesAt_def (pt : Nat) :
    adjacenciesAt pt = [pt - 21, pt + 1, pt + 21, pt - 1] := rfl

theorem adjacenciesAt_symm {a b : Nat} (ha : 22 ≤ a) (hb : 22 ≤ b)
    (h : b ∈ adjacenciesAt a) : a ∈ adjacenciesAt b := by
  rw [adjacenciesAt_def] at h ⊢
  simp only [List.mem_cons, List.mem_singleton, List.not_mem_nil, or_false] at h ⊢
  omega

theorem onBoardCoord_of_state {s : Nat → PointState} {q : Nat} {c : Color}
    (hwf : WfBoard s) (h : s q = PointState.Occupied c) : OnBoardCoord q := by
  by_contra hq
  rw [hwf q hq] at h
  exact PointState.noConfusion h

theorem opponent_ne (c : Color) : c.opponent ≠ c := by
  cases c <;> simp [Color.opponent]

theorem xyToLinearG_mono {w ob x y x2 y2 : Nat} (hx : x ≤ x2) (hy : y ≤ y2) :
    xyToLinearG w ob x y ≤ xyToLinearG w ob x2 y2 := by
  unfold xyToLinearG
  exact Nat.add_le_add (Nat.sub_le_sub_right (Nat.add_le_add_right hx _) 1)
    (Nat.mul_le_mul_right _ (Nat.sub_le_sub_right (Nat.add_le_add_right hy _) 1))

theorem setState_self (s : Nat → PointState) (pt : Nat) (v : PointState) :
    setState s pt v pt = v := by simp [setState]

theorem setState_ne (s : Nat → PointState) {pt q : Nat} (v : PointState)
    (h : q ≠ pt) : setState s pt v q = s q := by simp [setState, h]

/-! ### Growth of the flood state

The walk only ever appends to `points` and `liberties` and only ever adds
marks; appended points hold the seed state, appended liberties are empty. -/

theorem markSet_mono {m : Nat → Bool} {q : Nat} (a : Nat) (h : m q = true) :
    markSet m a q = true := by
  unfold markSet
  split <;> simp [h]

theorem processNeighbor_evolution (s : Nat → PointState) (v : PointState)
    (st : FloodState) (a : Nat) :
    ∃ tp tl, (processNeighbor s v st a).points = st.points ++ tp ∧
      (processNeighbor s v st a).libs = st.libs ++ tl ∧
      (∀ q ∈ tp, s q = v) ∧ (∀ q ∈ tl, s q = PointState.Empty) ∧
      (∀ q, st.marks q = true → (processNeighbor s v st a).marks q = true) ∧
      tp.length ≤ 1 := by
  unfold processNeighbor
  split_ifs with h1 h2 h3
  · exact ⟨[], [], by simp, by simp, by simp, by simp, fun q h => h, by simp⟩
  · exact ⟨[a], [], rfl, by simp, by simp [h2], by simp,
      fun q h => h, by simp⟩
  · exact ⟨[], [a], by simp, rfl, by simp, by simp [h3],
      fun q h => markSet_mono a h, by simp⟩
  · exact ⟨[], [], by simp, by simp, by simp, by simp,
      fun q h => markSet_mono a h, by simp⟩

theorem foldl_processNeighbor_evolution (s : Nat → PointState)
    (v : PointState) :
    ∀ (l : List Nat) (st : FloodState),
      ∃ tp tl, (l.foldl (processNeighbor s v) st).points = st.points ++ tp ∧
        (l.foldl (processNeighbor s v) st).libs = st.libs ++ tl ∧
        (∀ q ∈ tp, s q = v) ∧ (∀ q ∈ tl, s q = PointState.Empty) ∧
        (∀ q, st.marks q = true →
          (l.foldl (processNeighbor s v) st).marks q = true) ∧
        tp.length ≤ l.length := by
  intro l
  induction l with
  | nil =>
    exact fun st => ⟨[], [], by simp, by simp, by simp, by simp,
      fun q h => h, by simp⟩
  | cons a l ih =>
    intro st
    obtain ⟨tp1, tl1, hp1, hl1, hsp1, hsl1, hm1, hlen1⟩ :=
      processNeighbor_evolution s v st a
    obtain ⟨tp2, tl2, hp2, hl2, hsp2, hsl2, hm2, hlen2⟩ :=
      ih (processNeighbor s v st a)
    refine ⟨tp1 ++ tp2, tl1 ++ tl2, ?_, ?_, ?_, ?_, ?_, ?_⟩
    · rw [List.foldl_cons, hp2, hp1, List.append_assoc]
    · rw [List.foldl_cons, hl2, hl1, List.append_assoc]
    · intro q hq
      rcases List.mem_append.mp hq with h | h
      · exact hsp1 q h
      · exact hsp2 q h
    · intro q hq
      rcases List.mem_append.mp hq with h | h
      · exact hsl1 q h
      · exact hsl2 q h
    · intro q h
      rw [List.foldl_cons]
      exact hm2 q (hm1 q h)
    · simp only [List.length_append, List.length_cons]
      omega

theorem floodLoop_evolution (s : Nat → PointState) (v : PointState) :
    ∀ (fuel : Nat) (st : FloodState) (i : Nat),
      ∃ tp tl, (floodLoop s v fuel st i).points = st.points ++ tp ∧
        (floodLoop s v fuel st i).libs = st.libs ++ tl ∧
        (∀ q ∈ tp, s q = v) ∧ (∀ q ∈ tl, s q = PointState.Empty) ∧
        (∀ q, st.marks q = true → (floodLoop s v fuel st i).marks q = true) := by
  intro fuel
  induction fuel with
  | zero =>
    exact fun st i => ⟨[], [], by simp [floodLoop], by simp [floodLoop],
      by simp, by simp, fun q h => by simpa [floodLoop] using h⟩
  | succ fuel ih =>
    intro st i
    rw [floodLoop]
    by_cases h : i < st.points.length
    · rw [dif_pos h]
      by_cases hm : st.marks (st.points.get ⟨i, h⟩) = true
      · rw [if_pos hm]
        exact ih st (i + 1)
      · rw [if_neg hm]
        obtain ⟨tp1, tl1, hp1, hl1, hsp1, hsl1, hm1, _⟩ :=
          foldl_processNeighbor_evolution s v
            (adjacenciesAt (st.points.get ⟨i, h⟩))
            { st with marks := markSet st.marks (st.points.get ⟨i, h⟩) }
        obtain ⟨tp2, tl2, hp2, hl2, hsp2, hsl2, hm2⟩ :=
          ih ((adjacenciesAt (st.points.get ⟨i, h⟩)).foldl
            (processNeighbor s v)
            { st with marks := markSet st.marks (st.points.get ⟨i, h⟩) }) (i + 1)
        refine ⟨tp1 ++ tp2, tl1 ++ tl2, ?_, ?_, ?_, ?_, ?_⟩
        · rw [hp2, hp1, List.append_assoc]
        · rw [hl2, hl1, List.append_assoc]
        · intro q hq
          rcases List.mem_append.mp hq with hx | hx
          · exact hsp1 q hx
          · exact hsp2 q hx
        · intro q hq
          rcases List.mem_append.mp hq with hx | hx
          · exact hsl1 q hx
          · exact hsl2 q hx
        · intro q hq
          exact hm2 q (hm1 q (markSet_mono _ hq))
    · rw [dif_neg h]
      exact ⟨[], [], by simp, by simp, by simp, by simp, fun q hq => hq⟩

theorem stringAt_points_state (s : Nat → PointState) (pt : Nat) :
    ∀ q ∈ (stringAt s pt).points, s q = s pt := by
  intro q hq
  obtain ⟨tp, tl, hp, _, hsp, _, _⟩ := floodLoop_evolution s (s pt) floodFuel
    { marks := fun _ => false, points := [pt], libs := [] } 0
  unfold stringAt at hq
  simp only [hp] at hq
  rcases List.mem_append.mp hq with h | h
  · rw [List.mem_singleton.mp h]
  · exact hsp q h

theorem stringAt_seed_mem (s : Nat → PointState) (pt : Nat) :
    pt ∈ (stringAt s pt).points := by
  obtain ⟨tp, tl, hp, _, _, _, _⟩ := floodLoop_evolution s (s pt) floodFuel
    { marks := fun _ => false, points := [pt], libs := [] } 0
  unfold stringAt
  simp only [hp]
  exact List.mem_append_left _ (List.mem_singleton.mpr rfl)

theorem stringAt_libs_state (s : Nat → PointState) (pt : Nat) :
    ∀ q ∈ (stringAt s pt).liberties, s q = PointState.Empty := by
  intro q hq
  obtain ⟨tp, tl, _, hl, _, hsl, _⟩ := floodLoop_evolution s (s pt) floodFuel
    { marks := fun _ => false, points := [pt], libs := [] } 0
  unfold stringAt at hq
  simp only [hl] at hq
  exact hsl q (by simpa using hq)

theorem stringAt_opponents_nil (s : Nat → PointState) (pt : Nat) :
    (stringAt s pt).opponents = [] := rfl

theorem foldl_setEmpty_apply :
    ∀ (l : List Nat) (s : Nat → PointState) (q : Nat),
      (l.foldl (fun acc e => setState acc e PointState.Empty) s) q =
        if q ∈ l then PointState.Empty else s q := by
  intro l
  induction l with
  | nil => intro s q; simp
  | cons a l ih =>
    intro s q
    rw [List.foldl_cons, ih]
    by_cases hl : q ∈ l
    · simp [hl]
    · by_cases ha : q = a
      · simp [hl, ha, setState_self]
      · simp [hl, ha, setState_ne s PointState.Empty ha]

theorem removeString_apply (s : Nat → PointState) (g : GoString) (q : Nat) :
    removeString s g q =
      if q ∈ g.points then PointState.Empty else s q :=
  foldl_setEmpty_apply g.points s q

theorem captureFold_spec (opp : Color) :
    ∀ (l : List Nat) (c : Nat → PointState) (acc : List Nat),
      ∃ d, (l.foldl (captureStep opp) (c, acc)).2 = acc ++ d ∧
        (∀ q, (l.foldl (captureStep opp) (c, acc)).1 q =
          if q ∈ d then PointState.Empty else c q) ∧
        (∀ q ∈ d, c q = PointState.Occupied opp) ∧
        (d ≠ [] → ∃ a ∈ l, a ∈ d) := by
  intro l
  induction l with
  | nil =>
    intro c acc
    exact ⟨[], by simp, fun q => by simp, by simp, by simp⟩
  | cons a l ih =>
    intro c acc
    rw [List.foldl_cons]
    by_cases hca : c a = PointState.Occupied opp
    · by_cases hlib : (stringAt c a).liberties.length = 0
      · have hstep : captureStep opp (c, acc) a =
            (removeString c (stringAt c a), acc ++ (stringAt c a).points) := by
          simp [captureStep, hca, hlib]
        rw [hstep]
        obtain ⟨d2, hd2, hf2, hs2, _⟩ :=
          ih (removeString c (stringAt c a)) (acc ++ (stringAt c a).points)
        refine ⟨(stringAt c a).points ++ d2, ?_, ?_, ?_, ?_⟩
        · rw [hd2, List.append_assoc]
        · intro q
          rw [hf2 q, removeString_apply]
          by_cases h2 : q ∈ d2
          · simp [h2]
          · by_cases h1 : q ∈ (stringAt c a).points
            · simp [h1, h2]
            · simp [h1, h2]
        · intro q hq
          rcases List.mem_append.mp hq with h | h
          · rw [stringAt_points_state c a q h, hca]
          · have h3 := hs2 q h
            rw [removeString_apply] at h3
            by_cases h1 : q ∈ (stringAt c a).points
            · rw [if_pos h1] at h3
              exact absurd h3 (by simp)
            · rwa [if_neg h1] at h3
        · intro _
          exact ⟨a, List.mem_cons_self a l,
            List.mem_append_left _ (stringAt_seed_mem c a)⟩
      · have hstep : captureStep opp (c, acc) a = (c, acc) := by
          simp [captureStep, hca, hlib]
        rw [hstep]
        obtain ⟨d, hd, hf, hs, hne⟩ := ih c acc
        exact ⟨d, hd, hf, hs, fun h =>
          (hne h).elim fun x hx => ⟨x, List.mem_cons_of_mem a hx.1, hx.2⟩⟩
    · have hstep : captureStep opp (c, acc) a = (c, acc) := by
        simp [captureStep, hca]
      rw [hstep]
      obtain ⟨d, hd, hf, hs, hne⟩ := ih c acc
      exact ⟨d, hd, hf, hs, fun h =>
        (hne h).elim fun x hx => ⟨x, List.mem_cons_of_mem a hx.1, hx.2⟩⟩

/-- C5 counterexample: on the 19×19 board, linear coordinate 41 (that is
(x, y) = (20, 1), a halo cell, holding `Out` on a fresh board) is a member
of the sequence returned by `all_points()`, so the sequence does not
enumerate exactly the on-board coordinates. -/
theorem c5_counterexample :
    41 ∈ allPoints ∧ ¬ OnBoardCoord 41 ∧ resetStates 41 = PointState.Out := by
  decide

/-- C5 amended: for every board (width `w` ≥ 1, height `h` ≥ 1, halo `ob`),
`all_points()` enumerates, in strictly increasing order, exactly the
contiguous interval of linear coordinates from `xy_to_linear(1,1)` to
`xy_to_linear(w,h)`; this contains every on-board coordinate (in row-major
order) but also the halo coordinates lying between consecutive rows. -/
theorem c5_amended (w h ob : Nat) (hw : 1 ≤ w) (hh : 1 ≤ h) :
    (∀ pt, pt ∈ allPointsG w h ob ↔
      xyToLinearG w ob 1 1 ≤ pt ∧ pt ≤ xyToLinearG w ob w h) ∧
    (∀ x y, 1 ≤ x → x ≤ w → 1 ≤ y → y ≤ h →
      xyToLinearG w ob x y ∈ allPointsG w h ob) ∧
    List.Pairwise (· < ·) (allPointsG w h ob) := by
  have hlo : xyToLinearG w ob 1 1 ≤ xyToLinearG w ob w h :=
    xyToLinearG_mono hw hh
  have hmem : ∀ pt, pt ∈ allPointsG w h ob ↔
      xyToLinearG w ob 1 1 ≤ pt ∧ pt ≤ xyToLinearG w ob w h := by
    intro pt
    unfold allPointsG
    rw [List.mem_range'_1]
    omega
  refine ⟨hmem, ?_, List.pairwise_lt_range' _ _⟩
  intro x y hx1 hxw hy1 hyh
  rw [hmem]
  exact ⟨xyToLinearG_mono hx1 hy1, xyToLinearG_mono hxw hyh⟩

/-- C5 amended witness at the 19×19 board with halo 1. -/
theorem c5_amended_witness :
    1 ≤ 19 ∧
      (41 ∈ allPointsG 19 19 1 ↔
        xyToLinearG 19 1 1 1 ≤ 41 ∧ 41 ≤ xyToLinearG 19 1 19 19) ∧
      xyToLinearG 19 1 3 2 ∈ allPointsG 19 19 1 :=
  ⟨by decide, (c5_amended 19 19 1 (by decide) (by decide)).1 41,
    (c5_amended 19 19 1 (by decide) (by decide)).2.1 3 2 (by decide)
      (by decide) (by decide) (by decide)⟩

/-! ### Claim C8 -/

/-- C8: the algebraic coordinate codec round-trips every on-board linear
coordinate of the 19×19 board: parsing the printed form of `Linear pt`
yields `Ok (Linear pt)` again. -/
theorem c8_roundtrip (pt : Nat) (h : OnBoardCoord pt) :
    algebraicToMove (strCoordChars (Move.Linear pt)) =
      Except.ok (Move.Linear pt) := by
  have haux : ∀ q, q < 441 → OnBoardCoord q →
      algebraicToMove (strCoordChars (Move.Linear q)) =
        Except.ok (Move.Linear q) := by
    set_option maxRecDepth 10000 in decide
  have hb := onBoardCoord_bounds h
  exact haux pt (by omega) h

/-- C8 witness at the corner point (1,1) = linear 22. -/
theorem c8_roundtrip_witness :
    OnBoardCoord 22 ∧
      algebraicToMove (strCoordChars (Move.Linear 22)) =
        Except.ok (Move.Linear 22) :=
  ⟨by decide, c8_roundtrip 22 (by decide)⟩

/-! ### Claim C2 -/

/-- C2 counterexample: from `c2Pos` Black captures the white corner stone
and arms the ko at (1,1) (= linear 22); White then passes successfully,
yet `get_ko()` still returns `Some 22`, not `None`. -/
theorem c2_counterexample :
    c2AfterKo.ko = some 22 ∧
      (play c2AfterKo Move.Pass).1 =
        Except.ok ⟨Color.black, some 22, Move.Pass, []⟩ ∧
      (play c2AfterKo Move.Pass).2.ko = some 22 ∧
      (play c2AfterKo Move.Pass).2.ko ≠ none := by
  decide

/-- C2 amended: a successful `play(Pass)` leaves the ko point exactly as it
was (the pass branch of `play` never writes the ko field); the engine only
sets or clears ko on successful `Linear` plays. -/
theorem c2_amended (p : Position) :
    (play p Move.Pass).1 =
      Except.ok ⟨p.turn.opponent, p.ko, Move.Pass, []⟩ ∧
    (play p Move.Pass).2.ko = p.ko :=
  ⟨rfl, rfl⟩

/-! ### Claim C1 -/

/-- C1: evaluation of the code at the failing input.  From `c1Pos` (White
stone at (2,1) = linear 23 in atari, Black to move) Black plays (2,2) =
linear 44 and captures the white stone.  The returned `MoveLog` records
`turn = White` — the side to move after the play, not before it — and
undoing the log puts a Black stone on 23 where a White one stood, so undo
does not restore the prior position. -/
theorem c1_undo_fails_on_capture :
    (play c1Pos (Move.Linear 44)).1 =
      Except.ok ⟨Color.white, none, Move.Linear 44, [23]⟩ ∧
    c1Pos.turn = Color.black ∧
    c1Pos.states 23 = PointState.Occupied Color.white ∧
    (undoPlay (play c1Pos (Move.Linear 44)).2
        ⟨Color.white, none, Move.Linear 44, [23]⟩).states 23 =
      PointState.Occupied Color.black := by
  decide

/-! ### An explicit form of the Linear arm of `play` -/

theorem play_linear_eq (p : Position) (pt : Nat) :
    play p (Move.Linear pt) =
      if isKo p pt then (Except.error "prohibit move", p)
      else if (stringAt (captureBy (setState p.states pt
          (PointState.Occupied p.turn)) p.turn pt).1 pt).liberties.length = 0
        then
        (Except.error "suicide move",
          ⟨p.komi,
            setState (captureBy (setState p.states pt
              (PointState.Occupied p.turn)) p.turn pt).1 pt PointState.Empty,
            p.turn, p.ko⟩)
      else
        (Except.ok ⟨p.turn.opponent, p.ko, Move.Linear pt,
            (captureBy (setState p.states pt (PointState.Occupied p.turn))
              p.turn pt).2⟩,
          ⟨p.komi,
            (captureBy (setState p.states pt
              (PointState.Occupied p.turn)) p.turn pt).1,
            p.turn.opponent,
            if h : (captureBy (setState p.states pt
                  (PointState.Occupied p.turn)) p.turn pt).2.length = 1 ∧
                (stringAt (captureBy (setState p.states pt
                  (PointState.Occupied p.turn)) p.turn pt).1
                  pt).liberties.length = 1 ∧
                (stringAt (captureBy (setState p.states pt
                  (PointState.Occupied p.turn)) p.turn pt).1
                  pt).points.length = 1 then
              some ((stringAt (captureBy (setState p.states pt
                (PointState.Occupied p.turn)) p.turn pt).1 pt).liberties.get
                ⟨0, by rw [h.2.1]; exact Nat.zero_lt_one⟩)
            else none⟩) := rfl

/-! ### Claim C10 -/

/-- C10: a successful `play` changes exactly the cells the claim names.  A
pass changes no cell; a successful `Linear pt` play leaves every cell of
the padded array at its prior state except `pt` itself, which now holds the
mover's stone, and the coordinates listed in the returned `MoveLog`'s
captives, which are now `Empty` — in particular every halo cell is
untouched. -/
theorem c10_frame (p : Position) (m : Move) (log : MoveLog)
    (h : (play p m).1 = Except.ok log) :
    (m = Move.Pass → ∀ q, (play p m).2.states q = p.states q) ∧
    (∀ pt, m = Move.Linear pt → ∀ q,
      (play p m).2.states q =
        if q = pt then PointState.Occupied p.turn
        else if q ∈ log.captives then PointState.Empty
        else p.states q) := by
  cases m with
  | Pass => exact ⟨fun _ q => rfl, fun pt hpt => nomatch hpt⟩
  | Resign => exact absurd h (by simp [play])
  | Linear pt =>
    refine ⟨(fun hp => nomatch hp), ?_⟩
    intro pt0 hpt q
    injection hpt with h2
    subst h2
    rw [play_linear_eq] at h ⊢
    by_cases hko : isKo p pt = true
    · rw [if_pos hko] at h
      exact absurd h (by simp)
    · rw [if_neg hko] at h ⊢
      by_cases hlib : (stringAt (captureBy (setState p.states pt
          (PointState.Occupied p.turn)) p.turn pt).1 pt).liberties.length = 0
      · rw [if_pos hlib] at h
        exact absurd h (by simp)
      · rw [if_neg hlib] at h ⊢
        have hlog : log = ⟨p.turn.opponent, p.ko, Move.Linear pt,
            (captureBy (setState p.states pt (PointState.Occupied p.turn))
              p.turn pt).2⟩ := by
          have := h.symm
          simpa using this
        subst hlog
        show (captureBy (setState p.states pt (PointState.Occupied p.turn))
          p.turn pt).1 q = _
        obtain ⟨d, hd, hf, hs, _⟩ := captureFold_spec p.turn.opponent
          (adjacenciesAt pt) (setState p.states pt (PointState.Occupied p.turn))
          []
        rw [List.nil_append] at hd
        have hcb1 : (captureBy (setState p.states pt
            (PointState.Occupied p.turn)) p.turn pt).1 q =
            if q ∈ d then PointState.Empty
            else setState p.states pt (PointState.Occupied p.turn) q := hf q
        have hcb2 : (captureBy (setState p.states pt
            (PointState.Occupied p.turn)) p.turn pt).2 = d := hd
        rw [hcb1]
        have hptd : pt ∉ d := by
          intro hmem
          have h3 := hs pt hmem
          rw [setState_self] at h3
          injection h3 with h4
          exact opponent_ne p.turn h4.symm
        by_cases hq : q = pt
        · subst hq
          rw [if_neg hptd, if_pos rfl, setState_self]
        · rw [if_neg hq]
          show _ = if q ∈ (captureBy (setState p.states pt
            (PointState.Occupied p.turn)) p.turn pt).2 then PointState.Empty
            else p.states q
          rw [hcb2]
          by_cases hqd : q ∈ d
          · rw [if_pos hqd, if_pos hqd]
          · rw [if_neg hqd, if_neg hqd, setState_ne _ _ hq]

/-- C10 witness: at the concrete capture scenario `c1Pos`, the captured
point 23 is empty after the play, as the frame formula states. -/
theorem c10_frame_witness :
    (play c1Pos (Move.Linear 44)).1 =
      Except.ok ⟨Color.white, none, Move.Linear 44, [23]⟩ ∧
    (play c1Pos (Move.Linear 44)).2.states 23 = PointState.Empty := by
  refine ⟨by decide, ?_⟩
  have h := (c10_frame c1Pos (Move.Linear 44)
    ⟨Color.white, none, Move.Linear 44, [23]⟩ (by decide)).2 44 rfl 23
  simpa using h

/-! ### Claim C7 -/

theorem processNeighbor_marks_other (s : Nat → PointState) (v : PointState)
    (st : FloodState) {a b : Nat} (hab : a ≠ b) :
    (processNeighbor s v st b).marks a = st.marks a := by
  unfold processNeighbor
  split_ifs with h1 h2 h3 <;> simp [markSet, hab]

theorem foldl_processNeighbor_empty_mem (s : Nat → PointState)
    (v : PointState) (hv : v ≠ PointState.Empty) :
    ∀ (l : List Nat) (st : FloodState) (a : Nat), a ∈ l →
      s a = PointState.Empty → st.marks a = false →
      a ∈ (l.foldl (processNeighbor s v) st).libs := by
  intro l
  induction l with
  | nil => intro st a ha; exact absurd ha (List.not_mem_nil a)
  | cons b l ih =>
    intro st a hal ha hm
    rw [List.foldl_cons]
    by_cases hab : a = b
    · subst hab
      have hstep : processNeighbor s v st a =
          { st with marks := markSet st.marks a, libs := st.libs ++ [a] } := by
        unfold processNeighbor
        rw [if_neg (by simp [hm]), if_neg (fun heq => hv (ha ▸ heq).symm),
          if_pos ha]
      rw [hstep]
      obtain ⟨tp, tl, _, hl, _, _, _, _⟩ :=
        foldl_processNeighbor_evolution s v l
          { st with marks := markSet st.marks a, libs := st.libs ++ [a] }
      rw [hl]
      exact List.mem_append_left _ (List.mem_append_right _ (by simp))
    · rcases List.mem_cons.mp hal with h | h
      · exact absurd h hab
      · exact ih (processNeighbor s v st b) a h ha
          (by rw [processNeighbor_marks_other s v st hab]; exact hm)

theorem floodLoop_succ (s : Nat → PointState) (v : PointState) (fuel : Nat)
    (st : FloodState) (i : Nat) :
    floodLoop s v (fuel + 1) st i =
      if h : i < st.points.length then
        (if st.marks (st.points.get ⟨i, h⟩) then floodLoop s v fuel st (i + 1)
         else floodLoop s v fuel
           ((adjacenciesAt (st.points.get ⟨i, h⟩)).foldl (processNeighbor s v)
             { st with marks := markSet st.marks (st.points.get ⟨i, h⟩) })
           (i + 1))
      else st := rfl

/-- The first walk step of the flood processes the seed; hence every empty
cardinal neighbour of the seed ends up among the liberties. -/
theorem stringAt_lib_of_adj_empty (s : Nat → PointState) (pt a : Nat)
    (c : Color) (hpt : s pt = PointState.Occupied c) (ha : a ∈ adjacenciesAt pt)
    (hae : s a = PointState.Empty) : a ∈ (stringAt s pt).liberties := by
  have hne : a ≠ pt := fun h => by rw [h, hpt] at hae; exact nomatch hae
  suffices hsuf : a ∈ (floodLoop s (s pt) 2205
      ((adjacenciesAt pt).foldl (processNeighbor s (s pt))
        { marks := markSet (fun _ => false) pt, points := [pt], libs := [] })
      1).libs by
    exact hsuf
  obtain ⟨tp, tl, _, hl, _, _, _⟩ := floodLoop_evolution s (s pt) 2205
    ((adjacenciesAt pt).foldl (processNeighbor s (s pt))
      { marks := markSet (fun _ => false) pt, points := [pt], libs := [] }) 1
  rw [hl]
  refine List.mem_append_left _ ?_
  refine foldl_processNeighbor_empty_mem s (s pt)
    (fun h0 => by rw [hpt] at h0; exact nomatch h0)
    (adjacenciesAt pt)
    { marks := markSet (fun _ => false) pt, points := [pt], libs := [] }
    a ha hae ?_
  simp [markSet, hne]

/-- C7: every rule-violation error return of `play` (`KoForbidden`,
`Suicide`, `ResignNotPlayable` — the only errors `play` produces) leaves the
position unchanged: every cell of the state array, the side to move, and
the ko point keep their prior values.  The hypothesis restricts linear
moves to the documented precondition (an on-board, empty target); violating
it is a programmer error per the spec. -/
theorem c7_error_no_side_effects (p : Position) (m : Move) (e : String)
    (hpre : ∀ pt, m = Move.Linear pt →
      OnBoardCoord pt ∧ p.states pt = PointState.Empty)
    (h : (play p m).1 = Except.error e) :
    (∀ q, (play p m).2.states q = p.states q) ∧
    (play p m).2.turn = p.turn ∧ (play p m).2.ko = p.ko := by
  cases m with
  | Pass => exact absurd h (by simp [play])
  | Resign => exact ⟨fun q => rfl, rfl, rfl⟩
  | Linear pt =>
    obtain ⟨hob, hempty⟩ := hpre pt rfl
    rw [play_linear_eq] at h ⊢
    by_cases hko : isKo p pt = true
    · rw [if_pos hko]
      exact ⟨fun q => rfl, rfl, rfl⟩
    · rw [if_neg hko] at h ⊢
      by_cases hlib : (stringAt (captureBy (setState p.states pt
          (PointState.Occupied p.turn)) p.turn pt).1 pt).liberties.length = 0
      · rw [if_pos hlib]
        obtain ⟨d, hd, hf, hs, hne⟩ := captureFold_spec p.turn.opponent
          (adjacenciesAt pt)
          (setState p.states pt (PointState.Occupied p.turn)) []
        rw [List.nil_append] at hd
        have hptd : pt ∉ d := by
          intro hmem
          have h3 := hs pt hmem
          rw [setState_self] at h3
          injection h3 with h4
          exact opponent_ne p.turn h4.symm
        have hdnil : d = [] := by
          by_contra hdne
          obtain ⟨a, hal, had⟩ := hne hdne
          have hfa : (captureBy (setState p.states pt
              (PointState.Occupied p.turn)) p.turn pt).1 a =
              PointState.Empty := by
            have h5 := hf a
            rwa [if_pos had] at h5
          have hspt : (captureBy (setState p.states pt
              (PointState.Occupied p.turn)) p.turn pt).1 pt =
              PointState.Occupied p.turn := by
            have h5 := hf pt
            rwa [if_neg hptd, setState_self] at h5
          have hmem := stringAt_lib_of_adj_empty _ pt a p.turn hspt hal hfa
          rw [List.length_eq_zero] at hlib
          rw [hlib] at hmem
          exact absurd hmem (List.not_mem_nil a)
        refine ⟨?_, rfl, rfl⟩
        intro q
        show setState (captureBy (setState p.states pt
          (PointState.Occupied p.turn)) p.turn pt).1 pt PointState.Empty q =
          p.states q
        by_cases hq : q = pt
        · subst hq
          rw [setState_self, hempty]
        · rw [setState_ne _ _ hq]
          have h5 := hf q
          rw [hdnil] at h5
          simp only [List.not_mem_nil, if_false] at h5
          exact h5.trans (setState_ne _ _ hq)
      · rw [if_neg hlib] at h
        exact absurd h (by simp)

/-- C7 witness: playing on the armed ko point of `koPos` fails with the
ko-forbidden error and leaves the position unchanged. -/
theorem c7_witness :
    (play koPos (Move.Linear 22)).1 = Except.error "prohibit move" ∧
    (play koPos (Move.Linear 22)).2.states 23 = koPos.states 23 ∧
    (play koPos (Move.Linear 22)).2.turn = koPos.turn ∧
    (play koPos (Move.Linear 22)).2.ko = koPos.ko := by
  have h := c7_error_no_side_effects koPos (Move.Linear 22) "prohibit move"
    (fun pt hpt => by injection hpt with h2; subst h2; exact ⟨by decide, by decide⟩)
    (by decide)
  exact ⟨by decide, h.1 23, h.2.1, h.2.2⟩

/-! ### Claim C3 -/

theorem markSet_self (m : Nat → Bool) (a : Nat) : markSet m a a = true := by
  simp [markSet]

theorem processNeighbor_libsNodup (s : Nat → PointState) (v : PointState)
    (st : FloodState) (a : Nat) (h1 : st.libs.Nodup)
    (h2 : ∀ y ∈ st.libs, st.marks y = true) :
    (processNeighbor s v st a).libs.Nodup ∧
      ∀ y ∈ (processNeighbor s v st a).libs,
        (processNeighbor s v st a).marks y = true := by
  unfold processNeighbor
  split_ifs with hm hs he
  · exact ⟨h1, h2⟩
  · exact ⟨h1, h2⟩
  · have ha : a ∉ st.libs := fun hmem => hm (h2 a hmem)
    constructor
    · exact List.Nodup.append h1 (List.nodup_singleton a)
        (fun x hx hx2 => ha ((List.mem_singleton.mp hx2) ▸ hx))
    · intro y hy
      rcases List.mem_append.mp hy with hy1 | hy1
      · exact markSet_mono a (h2 y hy1)
      · rw [List.mem_singleton.mp hy1]
        exact markSet_self st.marks a
  · exact ⟨h1, fun y hy => markSet_mono a (h2 y hy)⟩

theorem foldl_processNeighbor_libsNodup (s : Nat → PointState)
    (v : PointState) :
    ∀ (l : List Nat) (st : FloodState), st.libs.Nodup →
      (∀ y ∈ st.libs, st.marks y = true) →
      (l.foldl (processNeighbor s v) st).libs.Nodup ∧
        ∀ y ∈ (l.foldl (processNeighbor s v) st).libs,
          (l.foldl (processNeighbor s v) st).marks y = true := by
  intro l
  induction l with
  | nil => exact fun st h1 h2 => ⟨h1, h2⟩
  | cons a l ih =>
    intro st h1 h2
    rw [List.foldl_cons]
    obtain ⟨h3, h4⟩ := processNeighbor_libsNodup s v st a h1 h2
    exact ih (processNeighbor s v st a) h3 h4

theorem floodLoop_libsNodup (s : Nat → PointState) (v : PointState) :
    ∀ (fuel : Nat) (st : FloodState) (i : Nat), st.libs.Nodup →
      (∀ y ∈ st.libs, st.marks y = true) →
      (floodLoop s v fuel st i).libs.Nodup := by
  intro fuel
  induction fuel with
  | zero => intro st i h1 _; exact h1
  | succ fuel ih =>
    intro st i h1 h2
    rw [floodLoop_succ]
    by_cases h : i < st.points.length
    · rw [dif_pos h]
      by_cases hm : st.marks (st.points.get ⟨i, h⟩) = true
      · rw [if_pos hm]
        exact ih st (i + 1) h1 h2
      · rw [if_neg hm]
        obtain ⟨h3, h4⟩ := foldl_processNeighbor_libsNodup s v
          (adjacenciesAt (st.points.get ⟨i, h⟩))
          { st with marks := markSet st.marks (st.points.get ⟨i, h⟩) }
          h1 (fun y hy => markSet_mono _ (h2 y hy))
        exact ih _ (i + 1) h3 h4
    · rw [dif_neg h]
      exact h1

theorem stringAt_libs_nodup (s : Nat → PointState) (pt : Nat) :
    (stringAt s pt).liberties.Nodup := by
  exact floodLoop_libsNodup s (s pt) floodFuel
    { marks := fun _ => false, points := [pt], libs := [] } 0
    List.nodup_nil (by simp)

/-- C3 counterexample: on the 2×2 block of black stones `sqBoard`, the
flood seeded at (1,1) = linear 22 pushes the diagonal stone (2,2) = 44
twice (once from each of its two already-processed neighbours), so the
`points` sequence of the returned `GoString` contains a duplicate. -/
theorem c3_counterexample :
    sqBoard 22 = PointState.Occupied Color.black ∧
      (stringAt sqBoard 22).points = [22, 23, 43, 44, 44] ∧
      ¬ (stringAt sqBoard 22).points.Nodup := by
  refine ⟨by decide, by decide, ?_⟩
  intro h
  rw [(by decide : (stringAt sqBoard 22).points = [22, 23, 43, 44, 44])] at h
  exact absurd h (by decide)

/-- C3 amended: for a stone at `pt`, the `liberties` and `opponents`
sequences of `string_at(pt)` are duplicate-free and the three sequences are
pairwise disjoint; the `points` sequence, however, may repeat coordinates
(each entry is a stone of the string, but a cell can be appended once per
already-visited neighbour, as the counterexample shows). -/
theorem c3_amended (s : Nat → PointState) (pt : Nat) (c : Color)
    (h : s pt = PointState.Occupied c) :
    (stringAt s pt).liberties.Nodup ∧ (stringAt s pt).opponents.Nodup ∧
      (∀ q, q ∈ (stringAt s pt).points → q ∉ (stringAt s pt).liberties) ∧
      (∀ q, q ∈ (stringAt s pt).points → q ∉ (stringAt s pt).opponents) ∧
      (∀ q, q ∈ (stringAt s pt).liberties → q ∉ (stringAt s pt).opponents) := by
  refine ⟨stringAt_libs_nodup s pt, ?_, ?_, ?_, ?_⟩
  · rw [stringAt_opponents_nil]
    exact List.nodup_nil
  · intro q hq hq2
    have h1 := stringAt_points_state s pt q hq
    have h2 := stringAt_libs_state s pt q hq2
    rw [h1, h] at h2
    exact nomatch h2
  · intro q _ hq2
    rw [stringAt_opponents_nil] at hq2
    exact absurd hq2 (List.not_mem_nil q)
  · intro q _ hq2
    rw [stringAt_opponents_nil] at hq2
    exact absurd hq2 (List.not_mem_nil q)

/-- C3 amended witness at the 2×2 block: the computed liberties are
duplicate-free and disjoint from the points. -/
theorem c3_amended_witness :
    sqBoard 22 = PointState.Occupied Color.black ∧
      (stringAt sqBoard 22).liberties.Nodup ∧
      ¬ (22 ∈ (stringAt sqBoard 22).liberties) :=
  ⟨by decide, (c3_amended sqBoard 22 Color.black (by decide)).1,
    fun hmem => (c3_amended sqBoard 22 Color.black (by decide)).2.2.1 22
      (stringAt_seed_mem sqBoard 22) hmem⟩

/-! ### Claim C9 -/

theorem occupied_opponent_ne (ec : Color) :
    PointState.Occupied ec ≠ PointState.Occupied ec.opponent := fun h => by
  injection h with h2
  exact opponent_ne ec h2.symm

theorem isEyeColors_found (s : Nat → PointState) (ec : Color) :
    ∀ (l : List Nat), (∀ n ∈ l, s n = PointState.Out ∨
      s n = PointState.Occupied ec) →
      isEyeColors s l (PointState.Occupied ec)
        (PointState.Occupied ec.opponent) =
        some (PointState.Occupied ec, PointState.Occupied ec.opponent) := by
  intro l
  induction l with
  | nil => intro _; rfl
  | cons n rest ih =>
    intro hl
    rcases hl n (List.mem_cons_self n rest) with hn | hn
    · simp only [isEyeColors, hn]
      exact ih (fun m hm => hl m (List.mem_cons_of_mem n hm))
    · simp only [isEyeColors, hn]
      rw [if_neg (fun h => nomatch h), if_neg (occupied_opponent_ne ec)]
      exact ih (fun m hm => hl m (List.mem_cons_of_mem n hm))

theorem isEyeColors_scan (s : Nat → PointState) (ec : Color) :
    ∀ (l : List Nat), (∀ n ∈ l, s n = PointState.Out ∨
      s n = PointState.Occupied ec) →
      (∃ n ∈ l, s n = PointState.Occupied ec) →
      isEyeColors s l PointState.Empty PointState.Empty =
        some (PointState.Occupied ec, PointState.Occupied ec.opponent) := by
  intro l
  induction l with
  | nil => intro _ hex; exact absurd hex (by simp)
  | cons n rest ih =>
    intro hl hex
    rcases hl n (List.mem_cons_self n rest) with hn | hn
    · simp only [isEyeColors, hn]
      refine ih (fun m hm => hl m (List.mem_cons_of_mem n hm)) ?_
      obtain ⟨m, hm, hms⟩ := hex
      rcases List.mem_cons.mp hm with rfl | hm2
      · rw [hn] at hms
        exact nomatch hms
      · exact ⟨m, hm2, hms⟩
    · simp only [isEyeColors, hn]
      rw [if_pos trivial]
      have hop : (PointState.Occupied ec).opponent =
          PointState.Occupied ec.opponent := rfl
      rw [hop]
      exact isEyeColors_found s ec rest
        (fun m hm => hl m (List.mem_cons_of_mem n hm))

theorem diag_fold_counts (s : Nat → PointState) (other : PointState)
    (hother : other ≠ PointState.Out) :
    ∀ (l : List Nat) (p : Nat × Nat),
      l.foldl (fun (acc : Nat × Nat) n =>
        let c := s n
        if c = PointState.Out then (acc.1 + 1, acc.2)
        else if c = other then (acc.1, acc.2 + 1)
        else acc) p =
      (p.1 + l.countP (fun n => decide (s n = PointState.Out)),
        p.2 + l.countP (fun n => decide (s n = other))) := by
  intro l
  induction l with
  | nil => intro p; simp
  | cons n rest ih =>
    intro p
    rw [List.foldl_cons, ih]
    by_cases h1 : s n = PointState.Out
    · simp [h1, List.countP_cons, Ne.symm hother, Prod.ext_iff]
      omega
    · by_cases h2 : s n = other
      · simp [h1, h2, hother, List.countP_cons, Prod.ext_iff]
        omega
      · simp [h1, h2, List.countP_cons, Prod.ext_iff]

theorem diag_fold_counts_zero (s : Nat → PointState) (other : PointState)
    (hother : other ≠ PointState.Out) (l : List Nat) :
    l.foldl (fun (acc : Nat × Nat) n =>
        let c := s n
        if c = PointState.Out then (acc.1 + 1, acc.2)
        else if c = other then (acc.1, acc.2 + 1)
        else acc) (0, 0) =
      (l.countP (fun n => decide (s n = PointState.Out)),
        l.countP (fun n => decide (s n = other))) := by
  rw [diag_fold_counts s other hother l (0, 0)]
  simp

/-- C9: on an empty on-board point whose cardinal neighbours are all `Out`
or stones of the single colour `ec` (with at least one such stone),
`is_eye` returns `Empty` exactly when (`n_out ≥ 1 ∧ n_opponent ≥ 1`) or
(`n_out = 0 ∧ n_opponent ≥ 2`), counting diagonals that are `Out`
respectively of the colour opposite to `ec`, and returns `Occupied ec`
otherwise; in particular, with only Black stones at (1,2) and (2,1) on an
otherwise empty board, `is_eye` at (1,1) returns `Occupied Black`. -/
theorem c9_is_eye :
    (∀ (s : Nat → PointState) (pt : Nat) (ec : Color),
      OnBoardCoord pt → s pt = PointState.Empty →
      (∀ n ∈ adjacenciesAt pt, s n = PointState.Out ∨
        s n = PointState.Occupied ec) →
      (∃ n ∈ adjacenciesAt pt, s n = PointState.Occupied ec) →
      ((isEye s pt = PointState.Empty ↔
          (1 ≤ diagOutCount s pt ∧ 1 ≤ diagOppCount s ec pt) ∨
          (diagOutCount s pt = 0 ∧ 2 ≤ diagOppCount s ec pt)) ∧
        (¬ ((1 ≤ diagOutCount s pt ∧ 1 ≤ diagOppCount s ec pt) ∨
            (diagOutCount s pt = 0 ∧ 2 ≤ diagOppCount s ec pt)) →
          isEye s pt = PointState.Occupied ec))) ∧
    isEye cornerBoard 22 = PointState.Occupied Color.black := by
  constructor
  · intro s pt ec _ _ hall hex
    unfold isEye
    rw [isEyeColors_scan s ec (adjacenciesAt pt) hall hex]
    simp only [diag_fold_counts_zero s (PointState.Occupied ec.opponent)
      (fun h => nomatch h) (diagonalNeighbors pt), diagOutCount, diagOppCount]
    by_cases hcond : 1 ≤ (diagonalNeighbors pt).countP
        (fun n => decide (s n = PointState.Out)) ∧
        1 ≤ (diagonalNeighbors pt).countP
          (fun n => decide (s n = PointState.Occupied ec.opponent)) ∨
        (diagonalNeighbors pt).countP
          (fun n => decide (s n = PointState.Out)) = 0 ∧
        2 ≤ (diagonalNeighbors pt).countP
          (fun n => decide (s n = PointState.Occupied ec.opponent))
    · rw [if_pos hcond]
      exact ⟨⟨(fun _ => hcond), (fun _ => rfl)⟩, (fun h => absurd hcond h)⟩
    · rw [if_neg hcond]
      exact ⟨⟨(fun h => nomatch h), (fun h => absurd h hcond)⟩, (fun _ => rfl)⟩
  · decide

/-- C9 witness at the corner scenario: the hypotheses hold at (1,1) of
`cornerBoard` and the eye predicate returns `Occupied Black` there because
neither disqualifying diagonal count is reached. -/
theorem c9_witness :
    OnBoardCoord 22 ∧ cornerBoard 22 = PointState.Empty ∧
      isEye cornerBoard 22 = PointState.Occupied Color.black :=
  ⟨by decide, by decide,
    (c9_is_eye.1 cornerBoard 22 Color.black (by decide) (by decide)
      (by decide) (by decide)).2 (by decide)⟩

/-! ### Reachability lemmas -/

theorem reach_refl (s : Nat → PointState) (v : PointState) (x : Nat) :
    Reach s v x x := Relation.ReflTransGen.refl

theorem reach_trans {s : Nat → PointState} {v : PointState} {x y z : Nat}
    (h1 : Reach s v x y) (h2 : Reach s v y z) : Reach s v x z :=
  Relation.ReflTransGen.trans h1 h2

theorem reach_tail {s : Nat → PointState} {v : PointState} {x y z : Nat}
    (h1 : Reach s v x y) (h2 : Step s v y z) : Reach s v x z :=
  Relation.ReflTransGen.tail h1 h2

theorem reach_target_state {s : Nat → PointState} {v : PointState}
    {q b : Nat} (h : Reach s v q b) (hq : s q = v) : s b = v := by
  induction h with
  | refl => exact hq
  | tail _ hstep _ => exact hstep.2.1

theorem step_symm {s : Nat → PointState} {c : Color} {a b : Nat}
    (hwf : WfBoard s) (h : Step s (PointState.Occupied c) a b) :
    Step s (PointState.Occupied c) b a := by
  obtain ⟨h1, h2, h3⟩ := h
  refine ⟨h2, h1, adjacenciesAt_symm ?_ ?_ h3⟩
  · exact (onBoardCoord_bounds (onBoardCoord_of_state hwf h1)).1
  · exact (onBoardCoord_bounds (onBoardCoord_of_state hwf h2)).1

theorem reach_symm {s : Nat → PointState} {c : Color} {x y : Nat}
    (hwf : WfBoard s) (h : Reach s (PointState.Occupied c) x y) :
    Reach s (PointState.Occupied c) y x :=
  Relation.ReflTransGen.symmetric (fun _ _ hs => step_symm hwf hs) h

theorem reach_transfer {s s2 : Nat → PointState} {v : PointState} {x y : Nat}
    (hagree : ∀ z, s z = v → s2 z = s z) (h : Reach s v x y) :
    Reach s2 v x y := by
  induction h with
  | refl => exact Relation.ReflTransGen.refl
  | tail _ hstep ih =>
    exact Relation.ReflTransGen.tail ih
      ⟨(hagree _ hstep.1).trans hstep.1, (hagree _ hstep.2.1).trans hstep.2.1,
        hstep.2.2⟩

theorem reach_of_cellEvo {c c2 : Nat → PointState} {opp : Color} {x y : Nat}
    (hevo : CellEvo (PointState.Occupied opp) c c2)
    (h : Reach c2 (PointState.Occupied opp) x y) :
    Reach c (PointState.Occupied opp) x y := by
  have hback : ∀ z, c2 z = PointState.Occupied opp →
      c z = PointState.Occupied opp := by
    intro z hz
    rcases hevo z with h1 | h1
    · rw [← h1, hz]
    · rw [hz] at h1
      exact nomatch h1.1
  induction h with
  | refl => exact Relation.ReflTransGen.refl
  | tail _ hstep ih =>
    exact Relation.ReflTransGen.tail ih
      ⟨hback _ hstep.1, hback _ hstep.2.1, hstep.2.2⟩

theorem handledOne_mono {s : Nat → PointState} {v : PointState}
    {st st2 : FloodState} {b : Nat}
    (hp : ∀ x, x ∈ st.points → x ∈ st2.points)
    (hl : ∀ x, x ∈ st.libs → x ∈ st2.libs)
    (h : HandledOne s v st b) : HandledOne s v st2 b :=
  ⟨(fun hv => hp b (h.1 hv)), (fun he => hl b (h.2 he))⟩

theorem handled_mono {s : Nat → PointState} {v : PointState}
    {st st2 : FloodState} {x : Nat}
    (hp : ∀ z, z ∈ st.points → z ∈ st2.points)
    (hl : ∀ z, z ∈ st.libs → z ∈ st2.libs)
    (h : Handled s v st x) : Handled s v st2 x :=
  fun b hb => handledOne_mono hp hl (h b hb)

/-! ### The flood walk establishes its characterisation -/

theorem markSet_other (m : Nat → Bool) (a : Nat) {q : Nat} (h : q ≠ a) :
    markSet m a q = m q := by
  simp [markSet, h]

theorem processNeighbor_mid (s : Nat → PointState) (v : PointState)
    (seed pt : Nat) (hv : v ≠ PointState.Empty) (a : Nat)
    (ha : a ∈ adjacenciesAt pt) (st : FloodState)
    (h : MidInv s v seed pt st) :
    MidInv s v seed pt (processNeighbor s v st a) ∧
      HandledOne s v (processNeighbor s v st a) a := by
  obtain ⟨hpts, hseed, hmpt, hptm, hreach, hspt, hmv, hme, hlibs⟩ := h
  by_cases h1 : st.marks a = true
  · have hstep : processNeighbor s v st a = st := by
      unfold processNeighbor
      rw [if_pos h1]
    rw [hstep]
    refine ⟨⟨hpts, hseed, hmpt, hptm, hreach, hspt, hmv, hme, hlibs⟩,
      ?_, ?_⟩
    · intro hav
      by_cases hap : a = pt
      · exact hap ▸ hptm
      · exact (hmv a h1 hav hap).1
    · intro hae
      exact hme a h1 hae
  · by_cases h2 : s a = v
    · have hstep : processNeighbor s v st a =
          { st with points := st.points ++ [a] } := by
        unfold processNeighbor
        rw [if_neg h1, if_pos h2]
      rw [hstep]
      have hsub : ∀ x, x ∈ st.points → x ∈ st.points ++ [a] :=
        fun x hx => List.mem_append_left _ hx
      refine ⟨⟨?_, hsub seed hseed, hmpt, hsub pt hptm, hreach, hspt,
        ?_, hme, hlibs⟩, ?_, ?_⟩
      · intro q hq
        rcases List.mem_append.mp hq with hq1 | hq1
        · exact hpts q hq1
        · rw [List.mem_singleton.mp hq1]
          exact ⟨h2, reach_tail hreach ⟨hspt, h2, ha⟩⟩
      · intro q hm hqv hqp
        obtain ⟨hq1, hq2⟩ := hmv q hm hqv hqp
        exact ⟨hsub q hq1,
          @handled_mono s v st { st with points := st.points ++ [a] } q
            hsub (fun z hz => hz) hq2⟩
      · intro hav
        exact List.mem_append_right _ (List.mem_singleton.mpr rfl)
      · intro hae
        exact absurd (h2.symm.trans hae) hv
    · by_cases h3 : s a = PointState.Empty
      · have hstep : processNeighbor s v st a =
            ⟨markSet st.marks a, st.points, st.libs ++ [a]⟩ := by
          unfold processNeighbor
          rw [if_neg h1, if_neg h2, if_pos h3]
        rw [hstep]
        have hsubl : ∀ x, x ∈ st.libs → x ∈ st.libs ++ [a] :=
          fun x hx => List.mem_append_left _ hx
        refine ⟨⟨hpts, hseed, markSet_mono a hmpt, hptm, hreach, hspt,
          ?_, ?_, ?_⟩, ?_, ?_⟩
        · intro q hm hqv hqp
          by_cases hqa : q = a
          · rw [hqa, h3] at hqv
            exact absurd hqv.symm hv
          · have hm2 : st.marks q = true := by
              have hm3 : markSet st.marks a q = true := hm
              rwa [markSet_other st.marks a hqa] at hm3
            obtain ⟨hq1, hq2⟩ := hmv q hm2 hqv hqp
            exact ⟨hq1,
              @handled_mono s v st ⟨markSet st.marks a, st.points,
                st.libs ++ [a]⟩ q (fun z hz => hz) hsubl hq2⟩
        · intro q hm hqe
          by_cases hqa : q = a
          · rw [hqa]
            exact List.mem_append_right _ (List.mem_singleton.mpr rfl)
          · have hm2 : st.marks q = true := by
              have hm3 : markSet st.marks a q = true := hm
              rwa [markSet_other st.marks a hqa] at hm3
            exact hsubl q (hme q hm2 hqe)
        · intro y hy
          rcases List.mem_append.mp hy with hy1 | hy1
          · exact hlibs y hy1
          · rw [List.mem_singleton.mp hy1]
            exact ⟨h3, pt, hreach, ha⟩
        · intro hav
          exact absurd hav h2
        · intro _
          exact List.mem_append_right _ (List.mem_singleton.mpr rfl)
      · have hstep : processNeighbor s v st a =
            { st with marks := markSet st.marks a } := by
          unfold processNeighbor
          rw [if_neg h1, if_neg h2, if_neg h3]
        rw [hstep]
        refine ⟨⟨hpts, hseed, markSet_mono a hmpt, hptm, hreach, hspt,
          ?_, ?_, hlibs⟩, ?_, ?_⟩
        · intro q hm hqv hqp
          by_cases hqa : q = a
          · rw [hqa] at hqv
            exact absurd hqv h2
          · have hm2 : st.marks q = true := by
              have hm3 : markSet st.marks a q = true := hm
              rwa [markSet_other st.marks a hqa] at hm3
            exact hmv q hm2 hqv hqp
        · intro q hm hqe
          by_cases hqa : q = a
          · rw [hqa] at hqe
            exact absurd hqe h3
          · have hm2 : st.marks q = true := by
              have hm3 : markSet st.marks a q = true := hm
              rwa [markSet_other st.marks a hqa] at hm3
            exact hme q hm2 hqe
        · intro hav
          exact absurd hav h2
        · intro hae
          exact absurd hae h3

theorem foldl_processNeighbor_mid (s : Nat → PointState) (v : PointState)
    (seed pt : Nat) (hv : v ≠ PointState.Empty) :
    ∀ (l : List Nat) (st : FloodState), (∀ b ∈ l, b ∈ adjacenciesAt pt) →
      MidInv s v seed pt st →
      MidInv s v seed pt (l.foldl (processNeighbor s v) st) ∧
        ∀ b ∈ l, HandledOne s v (l.foldl (processNeighbor s v) st) b := by
  intro l
  induction l with
  | nil => exact fun st _ h => ⟨h, by simp⟩
  | cons a rest ih =>
    intro st hsub h
    rw [List.foldl_cons]
    obtain ⟨h1, h2⟩ := processNeighbor_mid s v seed pt hv a
      (hsub a (List.mem_cons_self a rest)) st h
    obtain ⟨h3, h4⟩ := ih (processNeighbor s v st a)
      (fun b hb => hsub b (List.mem_cons_of_mem a hb)) h1
    refine ⟨h3, ?_⟩
    intro b hb
    rcases List.mem_cons.mp hb with hba | hb2
    · rw [hba]
      obtain ⟨tp, tl, hp, hl, _, _, _, _⟩ :=
        foldl_processNeighbor_evolution s v rest (processNeighbor s v st a)
      exact handledOne_mono
        (fun z hz => hp ▸ List.mem_append_left _ hz)
        (fun z hz => hl ▸ List.mem_append_left _ hz) h2
    · exact h4 b hb2

theorem unmarkedCount_lt {st st2 : FloodState} (pt : Nat)
    (hmono : ∀ q, st.marks q = true → st2.marks q = true)
    (hpt2 : st2.marks pt = true) (hpt : st.marks pt = false) (hlt : pt < 441) :
    unmarkedCount st2 < unmarkedCount st := by
  unfold unmarkedCount
  have hmem : pt ∈ (Finset.range 441).filter (fun q => st.marks q = false) :=
    Finset.mem_filter.mpr ⟨Finset.mem_range.mpr hlt, hpt⟩
  have hsub : (Finset.range 441).filter (fun q => st2.marks q = false) ⊆
      ((Finset.range 441).filter (fun q => st.marks q = false)).erase pt := by
    intro q hq
    rw [Finset.mem_filter] at hq
    rw [Finset.mem_erase, Finset.mem_filter]
    refine ⟨?_, hq.1, ?_⟩
    · intro hqpt
      rw [hqpt] at hq
      rw [hpt2] at hq
      exact nomatch hq.2
    · cases hsq : st.marks q with
      | false => rfl
      | true =>
        rw [hmono q hsq] at hq
        exact nomatch hq.2
  have h1 := Finset.card_le_card hsub
  have h2 := Finset.card_erase_of_mem hmem
  have h3 : 0 < ((Finset.range 441).filter
      (fun q => st.marks q = false)).card :=
    Finset.card_pos.mpr ⟨pt, hmem⟩
  omega

theorem floodInv_exit (s : Nat → PointState) (v : PointState) (seed : Nat)
    (st : FloodState) (i : Nat) (hinv : FloodInv s v seed st i)
    (hend : ¬ i < st.points.length) : FloodFinal s v seed st := by
  obtain ⟨hlen, hpts, hseed, hmarked, hmv, hme, hlibs⟩ := hinv
  have hallmarked : ∀ q, q ∈ st.points → st.marks q = true := by
    intro q hq
    refine hmarked q ?_
    rwa [List.take_all_of_le (by omega)]
  have hcomplete : ∀ q, Reach s v seed q → q ∈ st.points := by
    intro q hr
    induction hr with
    | refl => exact hseed
    | tail _ hstep ih =>
      obtain ⟨_, hbh⟩ := hmv _ (hallmarked _ ih) hstep.1
      exact (hbh _ hstep.2.2).1 hstep.2.1
  constructor
  · intro q
    exact ⟨(fun hq => (hpts q hq).2), hcomplete q⟩
  · intro y
    constructor
    · exact hlibs y
    · rintro ⟨hye, x, hx, hadj⟩
      have hxp := hcomplete x hx
      have hsx : s x = v := (hpts x hxp).1
      obtain ⟨_, hxh⟩ := hmv x (hallmarked x hxp) hsx
      exact (hxh y hadj).2 hye

theorem floodLoop_final (s : Nat → PointState) (c : Color) (seed : Nat)
    (hwf : WfBoard s) :
    ∀ (fuel : Nat) (st : FloodState) (i : Nat),
      FloodInv s (PointState.Occupied c) seed st i →
      floodMeasure st i ≤ fuel →
      FloodFinal s (PointState.Occupied c) seed
        (floodLoop s (PointState.Occupied c) fuel st i) := by
  intro fuel
  induction fuel with
  | zero =>
    intro st i hinv hm
    have hend : ¬ i < st.points.length := by
      unfold floodMeasure at hm
      omega
    exact floodInv_exit _ _ _ _ _ hinv hend
  | succ fuel ih =>
    intro st i hinv hm
    rw [floodLoop_succ]
    by_cases h : i < st.points.length
    · rw [dif_pos h]
      have htake : st.points.take (i + 1) =
          st.points.take i ++ [st.points.get ⟨i, h⟩] := by
        rw [List.take_succ, List.getElem?_eq_getElem h]
        rfl
      by_cases hmk : st.marks (st.points.get ⟨i, h⟩) = true
      · rw [if_pos hmk]
        obtain ⟨hlen, hpts, hseed, hmarked, hmv, hme, hlibs⟩ := hinv
        refine ih st (i + 1) ⟨h, hpts, hseed, ?_, hmv, hme, hlibs⟩ ?_
        · intro q hq
          rw [htake] at hq
          rcases List.mem_append.mp hq with hq1 | hq1
          · exact hmarked q hq1
          · rw [List.mem_singleton.mp hq1]
            exact hmk
        · unfold floodMeasure at hm ⊢
          omega
      · rw [if_neg hmk]
        obtain ⟨hlen, hpts, hseed, hmarked, hmv, hme, hlibs⟩ := hinv
        have hptmem : st.points.get ⟨i, h⟩ ∈ st.points :=
          List.get_mem st.points i h
        obtain ⟨hspt, hreachpt⟩ := hpts _ hptmem
        have hmid0 : MidInv s (PointState.Occupied c) seed
            (st.points.get ⟨i, h⟩)
            ⟨markSet st.marks (st.points.get ⟨i, h⟩), st.points, st.libs⟩ := by
          refine ⟨hpts, hseed, markSet_self _ _, hptmem, hreachpt,
            hspt, ?_, ?_, hlibs⟩
          · intro q hmq hqv hqp
            have hm2 : st.marks q = true := by
              have hm3 : markSet st.marks (st.points.get ⟨i, h⟩) q = true := hmq
              rwa [markSet_other st.marks (st.points.get ⟨i, h⟩) hqp] at hm3
            exact hmv q hm2 hqv
          · intro q hmq hqe
            by_cases hqp : q = st.points.get ⟨i, h⟩
            · rw [hqp, hspt] at hqe
              exact nomatch hqe
            · have hm2 : st.marks q = true := by
                have hm3 : markSet st.marks (st.points.get ⟨i, h⟩) q = true :=
                  hmq
                rwa [markSet_other st.marks (st.points.get ⟨i, h⟩) hqp] at hm3
              exact hme q hm2 hqe
        obtain ⟨hmid, hhand⟩ := foldl_processNeighbor_mid s
          (PointState.Occupied c) seed (st.points.get ⟨i, h⟩)
          (fun he => nomatch he) (adjacenciesAt (st.points.get ⟨i, h⟩))
          ⟨markSet st.marks (st.points.get ⟨i, h⟩), st.points, st.libs⟩
          (fun b hb => hb) hmid0
        obtain ⟨hpts2, hseed2, hmpt2, hptm2, _, _, hmv2, hme2, hlibs2⟩ := hmid
        obtain ⟨tp, tl, hp2, hl2, _, _, hmm2, hlen4⟩ :=
          foldl_processNeighbor_evolution s (PointState.Occupied c)
            (adjacenciesAt (st.points.get ⟨i, h⟩))
            ⟨markSet st.marks (st.points.get ⟨i, h⟩), st.points, st.libs⟩
        have hp2 : ((adjacenciesAt (st.points.get ⟨i, h⟩)).foldl
            (processNeighbor s (PointState.Occupied c))
            ⟨markSet st.marks (st.points.get ⟨i, h⟩), st.points,
              st.libs⟩).points = st.points ++ tp := hp2
        have hlen2 : ((adjacenciesAt (st.points.get ⟨i, h⟩)).foldl
            (processNeighbor s (PointState.Occupied c))
            ⟨markSet st.marks (st.points.get ⟨i, h⟩), st.points,
              st.libs⟩).points.length = st.points.length + tp.length := by
          rw [hp2]
          simp
        refine ih _ (i + 1) ⟨?_, hpts2, hseed2, ?_, ?_, hme2, hlibs2⟩ ?_
        · omega
        · intro q hq
          rw [hp2, List.take_append_of_le_length (by omega), htake] at hq
          rcases List.mem_append.mp hq with hq1 | hq1
          · exact hmm2 q (markSet_mono _ (hmarked q hq1))
          · rw [List.mem_singleton.mp hq1]
            exact hmpt2
        · intro q hmq hqv
          by_cases hqp : q = st.points.get ⟨i, h⟩
          · rw [hqp]
            refine ⟨hqp ▸ hptm2, ?_⟩
            intro b hb
            exact hhand b hb
          · exact hmv2 q hmq hqv hqp
        · unfold floodMeasure at hm ⊢
          have hU : unmarkedCount ((adjacenciesAt
              (st.points.get ⟨i, h⟩)).foldl
              (processNeighbor s (PointState.Occupied c))
              ⟨markSet st.marks (st.points.get ⟨i, h⟩), st.points,
                st.libs⟩) < unmarkedCount st := by
            refine unmarkedCount_lt (st.points.get ⟨i, h⟩)
              (fun q hq => hmm2 q (markSet_mono _ hq)) hmpt2
              (by
                cases hb : st.marks (st.points.get ⟨i, h⟩) with
                | false => rfl
                | true => exact absurd hb hmk) ?_
            have hb := onBoardCoord_bounds (onBoardCoord_of_state hwf hspt)
            omega
          have hlen5 : tp.length ≤ 4 := by
            have h6 : (adjacenciesAt (st.points.get ⟨i, h⟩)).length = 4 := rfl
            omega
          omega
    · rw [dif_neg h]
      exact floodInv_exit _ _ _ _ _ hinv h

/-- Full characterisation of the flood: for a stone at `pt` on a
well-formed board, `points` collects exactly the maximal 4-connected
same-coloured string of `pt` and `liberties` exactly its distinct empty
cardinal neighbourhood. -/
theorem stringAt_spec (s : Nat → PointState) (pt : Nat) (c : Color)
    (hwf : WfBoard s) (hpt : s pt = PointState.Occupied c) :
    (∀ q, q ∈ (stringAt s pt).points ↔
      Reach s (PointState.Occupied c) pt q) ∧
    (∀ y, y ∈ (stringAt s pt).liberties ↔ s y = PointState.Empty ∧
      ∃ x, Reach s (PointState.Occupied c) pt x ∧ y ∈ adjacenciesAt x) := by
  have hinv : FloodInv s (PointState.Occupied c) pt
      ⟨fun _ => false, [pt], []⟩ 0 := by
    refine ⟨by simp, ?_, List.mem_singleton.mpr rfl, by simp, ?_, ?_, by simp⟩
    · intro q hq
      rw [List.mem_singleton.mp hq]
      exact ⟨hpt, reach_refl s _ pt⟩
    · intro q hmq
      exact nomatch hmq
    · intro q hmq
      exact nomatch hmq
  have hmeas : floodMeasure ⟨fun _ => false, [pt], []⟩ 0 ≤ floodFuel := by
    unfold floodMeasure unmarkedCount floodFuel
    rw [Finset.filter_true_of_mem (fun x _ => rfl), Finset.card_range]
    simp
  have hfinal := floodLoop_final s c pt hwf floodFuel
    ⟨fun _ => false, [pt], []⟩ 0 hinv hmeas
  unfold stringAt
  rw [hpt]
  exact ⟨hfinal.1, hfinal.2⟩

/-! ### Claim C4 -/

/-- C4 counterexample: on `bwBoard` the black stone at (1,1) = linear 22
has the white stone (2,1) = linear 23 as a cardinal neighbour, yet the
`opponents` sequence of `string_at(22)` is empty — the implementation never
appends to it — so `opponents` is not the set of adjacent opposing
stones. -/
theorem c4_counterexample :
    bwBoard 22 = PointState.Occupied Color.black ∧
      bwBoard 23 = PointState.Occupied Color.white ∧
      23 ∈ adjacenciesAt 22 ∧
      22 ∈ (stringAt bwBoard 22).points ∧
      (stringAt bwBoard 22).opponents = [] := by
  decide

/-- C4 amended: for every well-formed board and stone point `pt`,
`string_at(pt)` returns a `GoString` whose `points` is (as a set) the
maximal 4-connected set of same-coloured stones containing `pt` and whose
`liberties` is the set of distinct empty cardinal neighbours of that set;
the `opponents` sequence, however, is always left empty — the
implementation does not collect opposing neighbours. -/
theorem c4_amended (s : Nat → PointState) (pt : Nat) (c : Color)
    (hwf : WfBoard s) (hpt : s pt = PointState.Occupied c) :
    (∀ q, q ∈ (stringAt s pt).points ↔
      Reach s (PointState.Occupied c) pt q) ∧
    (∀ y, y ∈ (stringAt s pt).liberties ↔ s y = PointState.Empty ∧
      ∃ x, Reach s (PointState.Occupied c) pt x ∧ y ∈ adjacenciesAt x) ∧
    (stringAt s pt).opponents = [] :=
  ⟨(stringAt_spec s pt c hwf hpt).1, (stringAt_spec s pt c hwf hpt).2, rfl⟩

theorem wf_resetStates : WfBoard resetStates := by
  intro q h
  unfold resetStates
  rw [if_neg h]

theorem wf_setState {s : Nat → PointState} (hwf : WfBoard s) {pt : Nat}
    (hpt : OnBoardCoord pt) (v : PointState) : WfBoard (setState s pt v) := by
  intro q h
  rw [setState_ne s v (fun heq => h (by rw [heq]; exact hpt))]
  exact hwf q h

theorem wf_bwBoard : WfBoard bwBoard :=
  wf_setState (wf_setState wf_resetStates (by decide) _) (by decide) _

/-- C4 amended witness at `bwBoard`: instances of the two equivalences at
concrete cells. -/
theorem c4_amended_witness :
    bwBoard 22 = PointState.Occupied Color.black ∧
      (23 ∈ (stringAt bwBoard 22).points ↔
        Reach bwBoard (PointState.Occupied Color.black) 22 23) ∧
      (43 ∈ (stringAt bwBoard 22).liberties ↔
        bwBoard 43 = PointState.Empty ∧
        ∃ x, Reach bwBoard (PointState.Occupied Color.black) 22 x ∧
          43 ∈ adjacenciesAt x) :=
  ⟨by decide,
    (c4_amended bwBoard 22 Color.black wf_bwBoard (by decide)).1 23,
    (c4_amended bwBoard 22 Color.black wf_bwBoard (by decide)).2.1 43⟩

/-! ### Claim C6: liveness through the capture phase -/

theorem cellEvo_refl (ov : PointState) (cb : Nat → PointState) :
    CellEvo ov cb cb := fun _ => Or.inl rfl

theorem cellEvo_trans {ov : PointState} {c1 c2 c3 : Nat → PointState}
    (h1 : CellEvo ov c1 c2) (h2 : CellEvo ov c2 c3) : CellEvo ov c1 c3 := by
  intro q
  rcases h2 q with ha | ha
  · rcases h1 q with hb | hb
    · exact Or.inl (ha.trans hb)
    · exact Or.inr ⟨ha.trans hb.1, hb.2⟩
  · rcases h1 q with hb | hb
    · exact Or.inr ⟨ha.1, hb.symm.trans ha.2⟩
    · exact Or.inr ⟨ha.1, hb.2⟩

theorem reach_preserved {s s2 : Nat → PointState} {v : PointState}
    {x y : Nat} (hagree : ∀ z, Reach s v x z → s2 z = s z)
    (h : Reach s v x y) : Reach s2 v x y := by
  induction h with
  | refl => exact Relation.ReflTransGen.refl
  | tail hxy hstep ih =>
    exact Relation.ReflTransGen.tail ih
      ⟨(hagree _ hxy).trans hstep.1,
        (hagree _ (reach_tail hxy hstep)).trans hstep.2.1, hstep.2.2⟩

theorem captureFold_alive (opp : Color) :
    ∀ (l : List Nat) (cb : Nat → PointState) (acc : List Nat),
      WfBoard cb → OppAlive cb opp l →
      WfBoard (l.foldl (captureStep opp) (cb, acc)).1 ∧
        CellEvo (PointState.Occupied opp) cb
          (l.foldl (captureStep opp) (cb, acc)).1 ∧
        OppAlive (l.foldl (captureStep opp) (cb, acc)).1 opp [] := by
  intro l
  induction l with
  | nil =>
    intro cb acc hwf hinv
    refine ⟨hwf, cellEvo_refl _ _, ?_⟩
    intro q hq
    rcases hinv q hq with h1 | h1
    · exact Or.inl h1
    · obtain ⟨b, hb, _⟩ := h1
      exact absurd hb (List.not_mem_nil b)
  | cons a rest ih =>
    intro cb acc hwf hinv
    rw [List.foldl_cons]
    by_cases hca : cb a = PointState.Occupied opp
    · by_cases hlib : (stringAt cb a).liberties.length = 0
      · -- the string of `a` is removed
        have hstep : captureStep opp (cb, acc) a =
            (removeString cb (stringAt cb a),
              acc ++ (stringAt cb a).points) := by
          simp [captureStep, hca, hlib]
        rw [hstep]
        have hspec := stringAt_spec cb a opp hwf hca
        have hrm : ∀ q, removeString cb (stringAt cb a) q =
            if q ∈ (stringAt cb a).points then PointState.Empty else cb q :=
          removeString_apply cb (stringAt cb a)
        have hwf2 : WfBoard (removeString cb (stringAt cb a)) := by
          intro q hq
          rw [hrm q, if_neg, hwf q hq]
          intro hqp
          have h2 := stringAt_points_state cb a q hqp
          rw [hwf q hq, hca] at h2
          exact nomatch h2
        have hevo : CellEvo (PointState.Occupied opp) cb
            (removeString cb (stringAt cb a)) := by
          intro q
          rw [hrm q]
          by_cases hqp : q ∈ (stringAt cb a).points
          · rw [if_pos hqp]
            exact Or.inr ⟨rfl, (stringAt_points_state cb a q hqp).trans hca⟩
          · rw [if_neg hqp]
            exact Or.inl rfl
        have halive2 : OppAlive (removeString cb (stringAt cb a)) opp rest := by
          intro q hq2
          have hq3 : q ∉ (stringAt cb a).points ∧
              cb q = PointState.Occupied opp := by
            rw [hrm q] at hq2
            by_cases hqp : q ∈ (stringAt cb a).points
            · rw [if_pos hqp] at hq2
              exact nomatch hq2
            · rw [if_neg hqp] at hq2
              exact ⟨hqp, hq2⟩
          have hnr : ¬ Reach cb (PointState.Occupied opp) a q :=
            fun hr => hq3.1 (((hspec.1) q).mpr hr)
          have huntouched : ∀ z, Reach cb (PointState.Occupied opp) q z →
              removeString cb (stringAt cb a) z = cb z := by
            intro z hz
            rw [hrm z, if_neg]
            intro hzp
            exact hnr (reach_trans (((hspec.1) z).mp hzp)
              (reach_symm hwf hz))
          rcases hinv q hq3.2 with ⟨r, a2, hr, hadj, hemp⟩ | ⟨b, hb, hrb⟩
          · left
            refine ⟨r, a2, reach_preserved huntouched hr, hadj, ?_⟩
            rw [hrm a2]
            by_cases ha2 : a2 ∈ (stringAt cb a).points
            · rw [if_pos ha2]
            · rw [if_neg ha2]
              exact hemp
          · by_cases hba : b = a
            · exfalso
              rw [hba] at hrb
              exact hnr (reach_symm hwf hrb)
            · right
              refine ⟨b, ?_, reach_preserved huntouched hrb⟩
              rcases List.mem_cons.mp hb with hba2 | hb2
              · exact absurd hba2 hba
              · exact hb2
        exact ih (removeString cb (stringAt cb a))
          (acc ++ (stringAt cb a).points) hwf2 halive2 |>.imp id
          (fun hx => ⟨cellEvo_trans hevo hx.1, hx.2⟩)
      · have hstep : captureStep opp (cb, acc) a = (cb, acc) := by
          simp [captureStep, hca, hlib]
        rw [hstep]
        have hspec := stringAt_spec cb a opp hwf hca
        have halive2 : OppAlive cb opp rest := by
          intro q hq
          rcases hinv q hq with h1 | ⟨b, hb, hrb⟩
          · exact Or.inl h1
          · by_cases hba : b = a
            · left
              have hlibne : (stringAt cb a).liberties ≠ [] := by
                intro hnil
                exact hlib (by rw [hnil]; rfl)
              obtain ⟨y, hy⟩ := List.exists_mem_of_ne_nil _ hlibne
              obtain ⟨hye, x, hx, hyadj⟩ := (hspec.2 y).mp hy
              rw [hba] at hrb
              exact ⟨x, y, reach_trans hrb hx, hyadj, hye⟩
            · right
              refine ⟨b, ?_, hrb⟩
              rcases List.mem_cons.mp hb with h2 | h2
              · exact absurd h2 hba
              · exact h2
        exact ih cb acc hwf halive2
    · have hstep : captureStep opp (cb, acc) a = (cb, acc) := by
        simp [captureStep, hca]
      rw [hstep]
      have halive2 : OppAlive cb opp rest := by
        intro q hq
        rcases hinv q hq with h1 | ⟨b, hb, hrb⟩
        · exact Or.inl h1
        · have hsb : cb b = PointState.Occupied opp :=
            reach_target_state hrb hq
          by_cases hba : b = a
          · rw [hba] at hsb
            exact absurd hsb hca
          · right
            refine ⟨b, ?_, hrb⟩
            rcases List.mem_cons.mp hb with h2 | h2
            · exact absurd h2 hba
            · exact h2
      exact ih cb acc hwf halive2

theorem color_cases (x t : Color) : x = t ∨ x = t.opponent := by
  cases x <;> cases t <;> simp [Color.opponent]

/-- C6: if every stone of a well-formed position has a liberty (the
invariant every reachable position satisfies) and `play` succeeds, then in
the resulting position every stone again belongs to a string with at least
one liberty.  Linear targets are restricted to the documented precondition
(on-board and empty). -/
theorem c6_no_dead_strings (p : Position) (m : Move) (log : MoveLog)
    (hwf : WfBoard p.states) (halive : AllAlive p.states)
    (hpre : ∀ pt, m = Move.Linear pt →
      OnBoardCoord pt ∧ p.states pt = PointState.Empty)
    (hok : (play p m).1 = Except.ok log) :
    AllAlive (play p m).2.states := by
  cases m with
  | Pass => exact halive
  | Resign => exact absurd hok (by simp [play])
  | Linear pt =>
    obtain ⟨hob, hempty⟩ := hpre pt rfl
    rw [play_linear_eq] at hok ⊢
    by_cases hko : isKo p pt = true
    · rw [if_pos hko] at hok
      exact absurd hok (by simp)
    · rw [if_neg hko] at hok ⊢
      by_cases hlib : (stringAt (captureBy (setState p.states pt
          (PointState.Occupied p.turn)) p.turn pt).1 pt).liberties.length = 0
      · rw [if_pos hlib] at hok
        exact absurd hok (by simp)
      · rw [if_neg hlib]
        show AllAlive (captureBy (setState p.states pt
          (PointState.Occupied p.turn)) p.turn pt).1
        have hwf1 : WfBoard (setState p.states pt
            (PointState.Occupied p.turn)) :=
          wf_setState hwf hob _
        have hvne : PointState.Occupied p.turn ≠
            PointState.Occupied p.turn.opponent := occupied_opponent_ne p.turn
        have hinit : OppAlive (setState p.states pt
            (PointState.Occupied p.turn)) p.turn.opponent
            (adjacenciesAt pt) := by
          intro q hq
          have hqpt : q ≠ pt := by
            intro hqe
            rw [hqe, setState_self] at hq
            exact hvne hq
          have hq0 : p.states q = PointState.Occupied p.turn.opponent := by
            rwa [setState_ne _ _ hqpt] at hq
          obtain ⟨r, a2, hr, hadj, hemp⟩ := halive q p.turn.opponent hq0
          have hagree : ∀ z, p.states z =
              PointState.Occupied p.turn.opponent →
              setState p.states pt (PointState.Occupied p.turn) z =
                p.states z := by
            intro z hz
            refine setState_ne _ _ ?_
            intro hze
            rw [hze, hempty] at hz
            exact nomatch hz
          have hr1 : Reach (setState p.states pt
              (PointState.Occupied p.turn))
              (PointState.Occupied p.turn.opponent) q r :=
            reach_transfer hagree hr
          by_cases ha2 : a2 = pt
          · right
            refine ⟨r, ?_, hr1⟩
            have hrs : setState p.states pt (PointState.Occupied p.turn) r =
                PointState.Occupied p.turn.opponent :=
              reach_target_state hr1 hq
            refine adjacenciesAt_symm ?_ ?_ ?_
            · exact (onBoardCoord_bounds
                (onBoardCoord_of_state hwf1 hrs)).1
            · exact (onBoardCoord_bounds hob).1
            · rw [← ha2]
              exact hadj
          · left
            refine ⟨r, a2, hr1, hadj, ?_⟩
            rw [setState_ne _ _ ha2]
            exact hemp
        obtain ⟨hwfb2, hevo, halive2⟩ := captureFold_alive p.turn.opponent
          (adjacenciesAt pt)
          (setState p.states pt (PointState.Occupied p.turn)) [] hwf1 hinit
        have hwfb2 : WfBoard (captureBy (setState p.states pt
            (PointState.Occupied p.turn)) p.turn pt).1 := hwfb2
        have hevo : CellEvo (PointState.Occupied p.turn.opponent)
            (setState p.states pt (PointState.Occupied p.turn))
            (captureBy (setState p.states pt
              (PointState.Occupied p.turn)) p.turn pt).1 := hevo
        have halive2 : OppAlive (captureBy (setState p.states pt
            (PointState.Occupied p.turn)) p.turn pt).1
            p.turn.opponent [] := halive2
        have hb2pt : (captureBy (setState p.states pt
            (PointState.Occupied p.turn)) p.turn pt).1 pt =
            PointState.Occupied p.turn := by
          rcases hevo pt with h1 | h1
          · rw [h1, setState_self]
          · rw [setState_self] at h1
            exact absurd h1.2 hvne
        intro q cq hq
        rcases color_cases cq p.turn with rfl | rfl
        · -- the mover's colour
          by_cases hqpt : Reach (captureBy (setState p.states pt
              (PointState.Occupied p.turn)) p.turn pt).1
              (PointState.Occupied p.turn) q pt
          · have hlibne : (stringAt (captureBy (setState p.states pt
                (PointState.Occupied p.turn)) p.turn pt).1
                pt).liberties ≠ [] := by
              intro hnil
              exact hlib (by rw [hnil]; rfl)
            obtain ⟨y, hy⟩ := List.exists_mem_of_ne_nil _ hlibne
            obtain ⟨hye, x, hx, hyadj⟩ :=
              ((stringAt_spec _ pt p.turn hwfb2 hb2pt).2 y).mp hy
            exact ⟨x, y, reach_trans hqpt hx, hyadj, hye⟩
          · have hqne : q ≠ pt := by
              intro hqe
              rw [hqe] at hqpt
              exact hqpt (reach_refl _ _ pt)
            have hq1 : setState p.states pt (PointState.Occupied p.turn) q =
                PointState.Occupied p.turn := by
              rcases hevo q with h1 | h1
              · rw [← h1, hq]
              · rw [hq] at h1
                exact nomatch h1.1
            have hq0 : p.states q = PointState.Occupied p.turn := by
              rwa [setState_ne _ _ hqne] at hq1
            obtain ⟨r, a2, hr, hadj, hemp⟩ := halive q p.turn hq0
            have hagreeT : ∀ z, p.states z = PointState.Occupied p.turn →
                (captureBy (setState p.states pt
                  (PointState.Occupied p.turn)) p.turn pt).1 z =
                  p.states z := by
              intro z hz
              have hzne : z ≠ pt := by
                intro hze
                rw [hze, hempty] at hz
                exact nomatch hz
              have hz1 : setState p.states pt
                  (PointState.Occupied p.turn) z = p.states z :=
                setState_ne _ _ hzne
              rcases hevo z with h1 | h1
              · rw [h1, hz1]
              · rw [hz1, hz] at h1
                exact absurd h1.2 hvne
            have hrb2 : Reach (captureBy (setState p.states pt
                (PointState.Occupied p.turn)) p.turn pt).1
                (PointState.Occupied p.turn) q r :=
              reach_transfer hagreeT hr
            by_cases ha2 : a2 = pt
            · exfalso
              have hrs : p.states r = PointState.Occupied p.turn :=
                reach_target_state hr hq0
              refine hqpt (reach_tail hrb2 ⟨?_, hb2pt, ?_⟩)
              · rw [hagreeT r hrs]
                exact hrs
              · rw [← ha2]
                exact hadj
            · refine ⟨r, a2, hrb2, hadj, ?_⟩
              have hs1a2 : setState p.states pt
                  (PointState.Occupied p.turn) a2 = PointState.Empty := by
                rw [setState_ne _ _ ha2]
                exact hemp
              rcases hevo a2 with h1 | h1
              · rw [h1, hs1a2]
              · exact h1.1
        · -- the opponent's colour
          rcases halive2 q hq with ⟨r, a2, hr, hadj, hemp⟩ | ⟨b, hb, _⟩
          · exact ⟨r, a2, hr, hadj, hemp⟩
          · exact absurd hb (List.not_mem_nil b)

/-- C6 witness: playing the first stone on an empty board keeps every
stone (the one just played) alive. -/
theorem c6_witness :
    OnBoardCoord 22 ∧ newPosition.states 22 = PointState.Empty ∧
      AllAlive (play newPosition (Move.Linear 22)).2.states := by
  have hwf : WfBoard newPosition.states := wf_resetStates
  have halive : AllAlive newPosition.states := by
    intro q c h
    exfalso
    have h2 : (if OnBoardCoord q then PointState.Empty else PointState.Out) =
        PointState.Occupied c := h
    by_cases hq : OnBoardCoord q
    · rw [if_pos hq] at h2
      exact nomatch h2
    · rw [if_neg hq] at h2
      exact nomatch h2
  refine ⟨by decide, by decide, ?_⟩
  refine c6_no_dead_strings newPosition (Move.Linear 22)
    ⟨Color.white, none, Move.Linear 22, []⟩ hwf halive ?_ ?_
  · intro pt hpt
    injection hpt with h2
    subst h2
    exact ⟨by decide, by decide⟩
  · decide

end GoKiri
